import Mathlib

/-!
Verification of `scripts/download_sfxengine_chess.py`.

The script is embedded shallowly: Python `str` values are lists of characters
(code points), the two `re` patterns of `extract_links` are implemented as
explicit scanners with the exact matching semantics of the compiled patterns
(including the literal-backslash consequence of the raw f-string `\\s`),
`urllib.parse.urljoin` / `urlsplit` / `urlparse` follow the CPython 3.11
implementation, and the command driver `main` is modelled as a pure function
over an oracle world (page fetch result, per-URL download outcome) and an
explicit output-directory state.

Modelling notes, for fidelity review:
* `urlsplit` raises `ValueError` on a netloc containing `[` or `]` but not
  both; this is modelled with `Except`.  Two further CPython checks that can
  raise on exotic inputs are not modelled and the model returns success
  where they would raise: `_check_bracketed_host` (netlocs of the form
  `[...]` whose bracketed part is not a valid IP literal) and `_checknetloc`
  (non-ASCII netlocs that change under NFKC normalisation).
* `str.lower` is modelled ASCII-only; it is applied to scheme names (always
  ASCII when split) and to filenames for the extension test.
* Python whitespace (`\s` in `str` patterns) is the Unicode whitespace set,
  reproduced below.
* The per-URL transfer oracle (`DlOutcome`) distinguishes, besides completed
  transfers, failures of the caught types `(HTTPError, URLError, OSError)`
  from exceptions outside them that `urlopen` or the body transfer can raise
  (`http.client.InvalidURL` for a nonnumeric port, `IncompleteRead` on a
  truncated body): the latter escape the download loop's `except` clause,
  abort the loop with interpreter exit status 1, and — when raised mid-stream
  — leave the partially written destination file on disk.
-/

deriving instance DecidableEq for Except

namespace SfxDL

/-- Python strings are modelled as lists of characters (code points). -/
abbrev PyStr := List Char

/-- The single quote character. -/
def squote : Char := Char.ofNat 39

/-- The double quote character. -/
def dquote : Char := Char.ofNat 34

/-- The backslash character. -/
def bslash : Char := Char.ofNat 92

/-- Is the character one of the two quote characters of the regex classes? -/
def isQuote (c : Char) : Bool := c == squote || c == dquote

/-- ASCII lower-casing of one character (model of `str.lower`, see header). -/
def lowerC (c : Char) : Char :=
  if 'A' ≤ c ∧ c ≤ 'Z' then Char.ofNat (c.toNat + 32) else c

/-- Is `pat` (given in lowercase) a case-insensitive prefix of `s`? -/
def ciPre : PyStr → PyStr → Bool
  | [], _ => true
  | _ :: _, [] => false
  | p :: ps, c :: cs => p == lowerC c && ciPre ps cs

/-- The Unicode whitespace set matched by `\s` in Python `str` patterns. -/
def pySpace (c : Char) : Bool :=
  (['\t', '\n', Char.ofNat 11, Char.ofNat 12, '\r', ' ',
    Char.ofNat 28, Char.ofNat 29, Char.ofNat 30, Char.ofNat 31,
    Char.ofNat 133, Char.ofNat 160, Char.ofNat 5760,
    Char.ofNat 8232, Char.ofNat 8233, Char.ofNat 8239, Char.ofNat 8287,
    Char.ofNat 12288] : List Char).contains c
  || (8192 ≤ c.toNat && c.toNat ≤ 8202)

/-- Split at the first character satisfying `p`: the second component starts
with that character, or is empty when no character satisfies `p`. -/
def breakAt (p : Char → Bool) : PyStr → PyStr × PyStr
  | [] => ([], [])
  | c :: cs =>
    if p c then ([], c :: cs)
    else
      let r := breakAt p cs
      (c :: r.1, r.2)

/-- The six audio extension names, in the alternation order of the regexes
(`mp3|wav|ogg|flac|aac|m4a`). -/
def extNames : List PyStr :=
  ["mp3".data, "wav".data, "ogg".data, "flac".data, "aac".data, "m4a".data]

/-- The tuple `AUDIO_EXTENSIONS` of the script (extension including dot). -/
def AUDIO_EXTENSIONS : List PyStr :=
  [".mp3".data, ".wav".data, ".ogg".data, ".flac".data, ".aac".data, ".m4a".data]

/-- Try the extension alternation at the start of `s`; on success return the
matched characters (original case) and the remainder. -/
def tryExtFrom : List PyStr → PyStr → Option (PyStr × PyStr)
  | [], _ => none
  | e :: es, s => if ciPre e s then some (s.take e.length, s.drop e.length) else tryExtFrom es s

/-- The extension alternation of both regexes. -/
def tryExt (s : PyStr) : Option (PyStr × PyStr) := tryExtFrom extNames s

/-- Does `s` end, case-insensitively, with a dot and one of the six extension
names, with at least one character before the dot? -/
def endsDotExt (s : PyStr) : Bool :=
  extNames.any fun e =>
    decide (e.length + 2 ≤ s.length) && ciPre ('.' :: e) (s.drop (s.length - (e.length + 1)))

/-- Does `s` end, case-insensitively, with a dot and one of the six extension
names (no requirement of a character before the dot)? -/
def endsAudio (s : PyStr) : Bool :=
  extNames.any fun e =>
    decide (e.length + 1 ≤ s.length) && ciPre ('.' :: e) (s.drop (s.length - (e.length + 1)))

/-- Full match of a quoted attribute value against
`[^'\"]+\.(?:mp3|wav|ogg|flac|aac|m4a)(?:\?[^'\"]*)?` (the content contains no
quote by construction, so the question is whether some split point `i` puts a
nonempty part ending in `.ext` before an optional `?...` tail). -/
def contentOK (c : PyStr) : Bool :=
  (List.range (c.length + 1)).any fun i =>
    endsDotExt (c.take i) && ((c.drop i).isEmpty || (c.drop i).head? == some '?')

/-- The attribute-name alternation of the `combined` regex, in source order. -/
def attrNames : List PyStr :=
  ["href".data, "src".data, "data-url".data, "data-href".data,
   "data-src".data, "data-mp3".data, "data-ogg".data]

/-- Consume one of the attribute names (case-insensitively) at the start of
`s`; the alternatives are mutually non-overlapping, so the first that matches
is the only one that can. -/
def dropAttr : List PyStr → PyStr → Option PyStr
  | [], _ => none
  | a :: more, s => if ciPre a s then some (s.drop a.length) else dropAttr more s

/-- Does the character match `s` case-insensitively? -/
def isSChar (c : Char) : Bool := lowerC c == 's'

/-- Expect the exact character `c` at the head. -/
def expectC (c : Char) : PyStr → Option PyStr
  | [] => none
  | d :: ds => if d == c then some ds else none

/-- One match attempt of the `combined` regex
`(?:href|...)\\s*=\\s*['\"]([^'\"]+\.(?:mp3|...)(?:\?[^'\"]*)?)['\"]`
anchored at the start of `s`.  Note the raw f-string `\\s` compiles to a
literal backslash followed by `s*`, so a literal backslash is required on each
side of `=`.  On success, returns the captured group and the rest of the text
after the match. -/
def matchCombinedAt (s : PyStr) : Option (PyStr × PyStr) := do
  let s1 ← dropAttr attrNames s
  let s2 ← expectC bslash s1
  let s3 := s2.dropWhile isSChar
  let s4 ← expectC '=' s3
  let s5 ← expectC bslash s4
  let s6 := s5.dropWhile isSChar
  match s6 with
  | [] => none
  | q :: s7 =>
    if isQuote q then
      let pr := breakAt isQuote s7
      match pr.2 with
      | [] => none
      | _ :: after => if contentOK pr.1 then some (pr.1, after) else none
    else none

/-- `findall` scan for the `combined` regex: leftmost matches, continuing
after each match; `fuel` bounds the recursion and is instantiated with the
text length. -/
def findallCombinedAux : Nat → PyStr → List PyStr
  | 0, _ => []
  | _ + 1, [] => []
  | n + 1, c :: cs =>
    match matchCombinedAt (c :: cs) with
    | some (g, rest) => g :: findallCombinedAux n rest
    | none => findallCombinedAux n cs

/-- All captures of the `combined` regex over the text, in order. -/
def findallCombined (s : PyStr) : List PyStr := findallCombinedAux s.length s

/-- Character class `[^'\"\s]` of the `absolute` regex. -/
def allowedBody (c : Char) : Bool := !(isQuote c || pySpace c)

/-- Greedy-body backtracking of the `absolute` regex: the largest index `b ≥ 1`
in `run` holding a dot followed (case-insensitively) by one of the extension
names; returns that index together with the matched extension-name length. -/
def bestDot (run : PyStr) : Option (Nat × Nat) :=
  (List.range run.length).foldl
    (fun acc i =>
      if decide (1 ≤ i) && (run.get? i == some '.') then
        match tryExt (run.drop (i + 1)) with
        | some (e, _) => some (i, e.length)
        | none => acc
      else acc)
    none

/-- One match attempt of the `absolute` regex
`https?://[^'\"\s]+\.(?:mp3|...)(?:\?[^'\"\s]+)?` anchored at the start of
`s`.  On success, returns the matched text and the rest of the text after the
match. -/
def matchAbsoluteAt (s : PyStr) : Option (PyStr × PyStr) :=
  if ciPre "http".data s then
    let k : Option Nat :=
      match s.drop 4 with
      | c :: cs =>
        if isSChar c then (if ciPre "://".data cs then some 4 else none)
        else if ciPre "://".data (c :: cs) then some 3 else none
      | [] => none
    match k with
    | none => none
    | some k =>
      let hdr := s.take (4 + k)
      let s2 := s.drop (4 + k)
      let run := s2.takeWhile allowedBody
      let after := s2.dropWhile allowedBody
      match bestDot run with
      | none => none
      | some (b, el) =>
        let p := b + 1 + el
        let stop := if run.get? p == some '?' && decide (p + 1 < run.length) then run.length else p
        some (hdr ++ run.take stop, run.drop stop ++ after)
  else none

/-- `findall` scan for the `absolute` regex. -/
def findallAbsoluteAux : Nat → PyStr → List PyStr
  | 0, _ => []
  | _ + 1, [] => []
  | n + 1, c :: cs =>
    match matchAbsoluteAt (c :: cs) with
    | some (g, rest) => g :: findallAbsoluteAux n rest
    | none => findallAbsoluteAux n cs

/-- All matches of the `absolute` regex over the text, in order. -/
def findallAbsolute (s : PyStr) : List PyStr := findallAbsoluteAux s.length s

/-- Kinds of uncaught exception: `valueError` is raised by
`urllib.parse.urlsplit` on a bracket-unbalanced netloc
(`ValueError("Invalid IPv6 URL")`); `httpException` stands for the transfer
exceptions outside `(HTTPError, URLError, OSError)` that `urlopen` or the
response body can raise (`http.client.InvalidURL` for a nonnumeric port,
`http.client.IncompleteRead` on a truncated body), which the download loop's
`except` clause does not catch. -/
inductive PyErr where
  | valueError
  | httpException
deriving DecidableEq

/-- `uses_relative` of `urllib.parse` (CPython 3.11). -/
def uses_relative : List PyStr :=
  ["".data, "ftp".data, "http".data, "gopher".data, "nntp".data, "imap".data,
   "wais".data, "file".data, "https".data, "shttp".data, "mms".data,
   "prospero".data, "rtsp".data, "rtsps".data, "rtspu".data, "sftp".data,
   "svn".data, "svn+ssh".data, "ws".data, "wss".data]

/-- `uses_netloc` of `urllib.parse` (CPython 3.11). -/
def uses_netloc : List PyStr :=
  ["".data, "ftp".data, "http".data, "gopher".data, "nntp".data, "telnet".data,
   "imap".data, "wais".data, "file".data, "mms".data, "https".data, "shttp".data,
   "snews".data, "prospero".data, "rtsp".data, "rtsps".data, "rtspu".data,
   "rsync".data, "svn".data, "svn+ssh".data, "sftp".data, "nfs".data,
   "git".data, "git+ssh".data, "ws".data, "wss".data]

/-- `uses_params` of `urllib.parse` (CPython 3.11). -/
def uses_params : List PyStr :=
  ["".data, "ftp".data, "hdl".data, "prospero".data, "http".data, "imap".data,
   "https".data, "shttp".data, "rtsp".data, "rtsps".data, "rtspu".data,
   "sip".data, "sips".data, "mms".data, "sftp".data, "tel".data]

/-- Leading C0-control-or-space characters that `urlsplit` strips. -/
def isC0OrSpace (c : Char) : Bool := c.toNat ≤ 32

/-- `urlsplit` removes tab, carriage return and newline anywhere in the URL. -/
def removeUnsafe (s : PyStr) : PyStr :=
  s.filter fun c => !(c == '\t' || c == '\r' || c == '\n')

/-- ASCII letter (`url[0].isascii() and url[0].isalpha()`). -/
def isAsciiAlpha (c : Char) : Bool :=
  ('A' ≤ c && c ≤ 'Z') || ('a' ≤ c && c ≤ 'z')

/-- Characters valid in scheme names (`scheme_chars`). -/
def isSchemeChar (c : Char) : Bool :=
  isAsciiAlpha c || ('0' ≤ c && c ≤ '9') || c == '+' || c == '-' || c == '.'

/-- The scheme-splitting step of `urlsplit`: if the first `:` is preceded by a
nonempty run of scheme characters starting with an ASCII letter, the scheme is
that run lower-cased and the URL continues after the colon; otherwise the
default scheme is kept and the URL is unchanged. -/
def splitScheme (dflt url : PyStr) : PyStr × PyStr :=
  let pr := breakAt (fun c => c == ':') url
  match pr.2 with
  | [] => (dflt, url)
  | _ :: tl =>
    match pr.1 with
    | [] => (dflt, url)
    | c :: cs =>
      if isAsciiAlpha c && (c :: cs).all isSchemeChar then ((c :: cs).map lowerC, tl)
      else (dflt, url)

/-- Result of `urlsplit`: scheme, netloc, path, query, fragment. -/
structure Split5 where
  scheme : PyStr
  netloc : PyStr
  path : PyStr
  query : PyStr
  frag : PyStr
deriving DecidableEq

/-- Fragment and query splitting shared by the two `urlsplit` branches. -/
def finishSplit (scheme netloc rest : PyStr) : Split5 :=
  let fr := breakAt (fun c => c == '#') rest
  let frag := match fr.2 with | [] => [] | _ :: t => t
  let qr := breakAt (fun c => c == '?') fr.1
  let query := match qr.2 with | [] => [] | _ :: t => t
  ⟨scheme, netloc, qr.1, query, frag⟩

/-- `urllib.parse.urlsplit` (CPython 3.11), with `allow_fragments=True`.  See
the header for the two unmodelled exotic `ValueError` checks. -/
def urlsplit (url0 dfltScheme : PyStr) : Except PyErr Split5 :=
  let url1 := removeUnsafe ((url0.dropWhile isC0OrSpace))
  let sp := splitScheme dfltScheme url1
  let scheme := sp.1
  let url2 := sp.2
  if url2.take 2 = ['/', '/'] then
    let nr := breakAt (fun c => c == '/' || c == '?' || c == '#') (url2.drop 2)
    if (nr.1.contains '[' && !nr.1.contains ']') || (nr.1.contains ']' && !nr.1.contains '[') then
      .error .valueError
    else
      .ok (finishSplit scheme nr.1 nr.2)
  else
    .ok (finishSplit scheme [] url2)

/-- `_splitparams`: split the parameters after the first `;` of the last path
segment (only ever called when the path contains a `;`). -/
def splitparams (url : PyStr) : PyStr × PyStr :=
  if url.contains '/' then
    let revp := breakAt (fun c => c == '/') url.reverse
    let lastSeg := revp.1.reverse
    let prePart := revp.2.reverse
    let pr := breakAt (fun c => c == ';') lastSeg
    match pr.2 with
    | [] => (url, [])
    | _ :: t => (prePart ++ pr.1, t)
  else
    let pr := breakAt (fun c => c == ';') url
    match pr.2 with
    | [] => (url, [])
    | _ :: t => (pr.1, t)

/-- Result of `urlparse`: scheme, netloc, path, params, query, fragment. -/
structure Parse6 where
  scheme : PyStr
  netloc : PyStr
  path : PyStr
  params : PyStr
  query : PyStr
  frag : PyStr
deriving DecidableEq

/-- `urllib.parse.urlparse` (CPython 3.11). -/
def urlparse (url dflt : PyStr) : Except PyErr Parse6 := do
  let s ← urlsplit url dflt
  if uses_params.contains s.scheme ∧ s.path.contains ';' then
    let pr := splitparams s.path
    .ok ⟨s.scheme, s.netloc, pr.1, pr.2, s.query, s.frag⟩
  else
    .ok ⟨s.scheme, s.netloc, s.path, [], s.query, s.frag⟩

/-- `urllib.parse.urlunsplit` (CPython 3.11). -/
def urlunsplit (scheme netloc path query frag : PyStr) : PyStr :=
  let url :=
    if netloc ≠ [] ∨ (scheme ≠ [] ∧ uses_netloc.contains scheme ∧ path.take 2 ≠ ['/', '/']) then
      let url1 := if path ≠ [] ∧ path.head? ≠ some '/' then '/' :: path else path
      '/' :: '/' :: (netloc ++ url1)
    else path
  let url := if scheme ≠ [] then scheme ++ ':' :: url else url
  let url := if query ≠ [] then url ++ '?' :: query else url
  if frag ≠ [] then url ++ '#' :: frag else url

/-- `urllib.parse.urlunparse` (CPython 3.11). -/
def urlunparse (x : Parse6) : PyStr :=
  let u := if x.params ≠ [] then x.path ++ ';' :: x.params else x.path
  urlunsplit x.scheme x.netloc u x.query x.frag

/-- `str.split(sep)` (split at every occurrence of the separator), with
structural fuel; with fuel above the string length the fuel never runs out. -/
def splitSepCore (sep : Char) : Nat → PyStr → List PyStr
  | 0, l => [l]
  | fuel + 1, l =>
    match breakAt (fun c => c == sep) l with
    | (pre, []) => [pre]
    | (pre, _ :: t) => pre :: splitSepCore sep fuel t

/-- `str.split(sep)`. -/
def splitSep (sep : Char) (l : PyStr) : List PyStr := splitSepCore sep (l.length + 1) l

/-- `sep.join(parts)`. -/
def joinSep (sep : PyStr) : List PyStr → PyStr
  | [] => []
  | [x] => x
  | x :: y :: rest => x ++ sep ++ joinSep sep (y :: rest)

/-- `segments[1:-1] = filter(None, segments[1:-1])`: drop empty segments,
keeping the first and last elements. -/
def filterMiddle : List PyStr → List PyStr
  | [] => []
  | [a] => [a]
  | a :: rest => a :: ((rest.dropLast.filter fun s => !s.isEmpty) ++ rest.getLast?.toList)

/-- The dot-segment resolution loop of `urljoin` (`..` pops, `.` is skipped,
popping an empty stack is ignored). -/
def resolveSegs (segs : List PyStr) : List PyStr :=
  segs.foldl
    (fun acc seg =>
      if seg = ['.', '.'] then acc.dropLast
      else if seg = ['.'] then acc
      else acc ++ [seg])
    []

/-- `urllib.parse.urljoin` (CPython 3.11), with the `ValueError` of `urlsplit`
propagated as `Except`. -/
def urljoin (base url : PyStr) : Except PyErr PyStr := do
  if base = [] then .ok url
  else if url = [] then .ok base
  else
    let b ← urlparse base []
    let u ← urlparse url b.scheme
    if u.scheme ≠ b.scheme ∨ ¬ uses_relative.contains u.scheme then .ok url
    else if uses_netloc.contains u.scheme ∧ u.netloc ≠ [] then
      .ok (urlunparse ⟨u.scheme, u.netloc, u.path, u.params, u.query, u.frag⟩)
    else
      let netloc := if uses_netloc.contains u.scheme then b.netloc else u.netloc
      if u.path = [] ∧ u.params = [] then
        let query := if u.query = [] then b.query else u.query
        .ok (urlunparse ⟨u.scheme, netloc, b.path, b.params, query, u.frag⟩)
      else
        let baseParts0 := splitSep '/' b.path
        let baseParts := if baseParts0.getLast? ≠ some [] then baseParts0.dropLast else baseParts0
        let segments :=
          if u.path.head? = some '/' then splitSep '/' u.path
          else filterMiddle (baseParts ++ splitSep '/' u.path)
        let resolved0 := resolveSegs segments
        let resolved :=
          if segments.getLast? = some ['.', '.'] ∨ segments.getLast? = some ['.'] then
            resolved0 ++ [[]]
          else resolved0
        let joined := joinSep ['/'] resolved
        let path := if joined = [] then ['/'] else joined
        .ok (urlunparse ⟨u.scheme, netloc, path, u.params, u.query, u.frag⟩)

/-- Lexicographic comparison of Python strings by code point (`str.__lt__`),
as a `≤` test; used to model `sorted`. -/
def lexLe : PyStr → PyStr → Bool
  | [], _ => true
  | _ :: _, [] => false
  | a :: as1, b :: bs => if a = b then lexLe as1 bs else decide (a < b)

/-- The order relation used by the model of `sorted`. -/
def pyLe (a b : PyStr) : Prop := lexLe a b = true

instance : DecidableRel pyLe := fun _ _ => inferInstanceAs (Decidable (_ = true))

/-- The resolve-and-add loop over the matches of one pattern: `urljoin` each
match in order, propagating the uncaught `ValueError`. -/
def mapME (f : PyStr → Except PyErr PyStr) : List PyStr → Except PyErr (List PyStr)
  | [] => .ok []
  | x :: xs => do
    let y ← f x
    let ys ← mapME f xs
    .ok (y :: ys)

/-- `extract_links` of the script: run both `findall` scans, resolve each
match against the page URL, deduplicate (the `found` set) and sort.  A
`ValueError` raised by `urljoin` propagates (the script does not catch it). -/
def extract_links (html base : PyStr) : Except PyErr (List PyStr) := do
  let cs ← mapME (urljoin base) (findallCombined html)
  let es ← mapME (urljoin base) (findallAbsolute html)
  .ok (List.insertionSort pyLe ((cs ++ es).dedup))

/-- Decimal rendering of a natural number (the f-string `{counter}`), with
structural fuel; `natRepr` instantiates the fuel sufficiently. -/
def natReprCore : Nat → Nat → PyStr
  | 0, _ => []
  | fuel + 1, n =>
    if n < 10 then [Char.ofNat (48 + n)]
    else natReprCore fuel (n / 10) ++ [Char.ofNat (48 + n % 10)]

/-- Decimal rendering of a natural number. -/
def natRepr (n : Nat) : PyStr := natReprCore (n + 1) n

/-- `pathlib.PurePosixPath(p).name`: the last component after dropping empty
and `.` components (so a trailing slash is ignored); empty when none remain. -/
def pathlibName (p : PyStr) : PyStr :=
  (((List.splitOn '/' p).filter fun s => !(s.isEmpty || s == ['.']))).getLast?.getD []

/-- `pathlib` `stem`/`suffix` of a single-component name: split at the last
dot when it is neither the first nor past the last character. -/
def pathStemSuffix (nm : PyStr) : PyStr × PyStr :=
  let r := breakAt (fun c => c == '.') nm.reverse
  match r.2 with
  | [] => (nm, [])
  | _ :: before =>
    if before = [] ∨ r.1 = [] then (nm, [])
    else (before.reverse, '.' :: r.1.reverse)

/-- The filename derivation of `download_file` (lines 61-64 of the script):
`Path(urlparse(url).path).name or "audio"`, with `.mp3` appended when the
lower-cased name does not end in one of `AUDIO_EXTENSIONS`.  The `ValueError`
of `urlparse` propagates. -/
def filenameFor (url : PyStr) : Except PyErr PyStr := do
  let parsed ← urlparse url []
  let nm0 := pathlibName parsed.path
  let nm1 := if nm0 = [] then "audio".data else nm0
  if AUDIO_EXTENSIONS.any (fun e => e.isSuffixOf (nm1.map lowerC)) then .ok nm1
  else .ok (nm1 ++ ".mp3".data)

/-- The candidate name `f"{stem}-{counter}{suffix}"`. -/
def cand (stem suffix : PyStr) (k : Nat) : PyStr := stem ++ '-' :: natRepr k ++ suffix

/-- The `while destination.exists()` collision loop, with structural fuel;
with adequate fuel (one more than the number of existing files) the base case
is unreachable. -/
def collisionLoop (existsF : PyStr → Bool) (stem suffix : PyStr) : Nat → Nat → PyStr
  | c, 0 => cand stem suffix c
  | c, fuel + 1 =>
    if existsF (cand stem suffix c) then collisionLoop existsF stem suffix (c + 1) fuel
    else cand stem suffix c

/-- Destination-name choice of `download_file` (lines 66-73): keep the name
unless it exists and overwrite is off, in which case run the collision loop
from counter 1. -/
def chooseDest (existsF : PyStr → Bool) (filename : PyStr) (overwrite : Bool) (fuel : Nat) : PyStr :=
  if existsF filename ∧ overwrite = false then
    let ss := pathStemSuffix filename
    collisionLoop existsF ss.1 ss.2 1 fuel
  else filename

/-- One manifest entry: `filename`, `relative_path` (relative to the manifest
directory), `source_url`. -/
structure MEntry where
  filename : PyStr
  relative_path : PyStr
  source_url : PyStr
deriving DecidableEq

/-- The manifest record of `write_manifest`. -/
structure Manifest where
  source_page : PyStr
  file_count : Nat
  files : List MEntry
deriving DecidableEq

/-- Contents of a file in the output directory: raw downloaded bytes or the
JSON manifest (kept structured; its serialisation is irrelevant here). -/
inductive FileData where
  | bytes (content : PyStr)
  | manifestFile (m : Manifest)
deriving DecidableEq

/-- The output directory: whether it exists, and its files by name. -/
structure FS where
  dirExists : Bool
  files : List (PyStr × FileData)
deriving DecidableEq

/-- Does a file of this name exist in the output directory? -/
def FS.hasFile (fs : FS) (nm : PyStr) : Bool := (fs.files.map Prod.fst).contains nm

/-- Create or replace the file `nm`. -/
def FS.setFile (fs : FS) (nm : PyStr) (d : FileData) : FS :=
  ⟨fs.dirExists, (fs.files.filter fun p => !(p.1 == nm)) ++ [(nm, d)]⟩

/-- Contents of the file `nm`, if present. -/
def FS.read (fs : FS) (nm : PyStr) : Option FileData :=
  (fs.files.find? fun p => p.1 == nm).map Prod.snd

/-- Outcome of one HTTP file transfer, as observed by `download_file`:
`connectFail` models `urlopen` (or the local `open`) raising one of the
caught types (`HTTPError`, `URLError`, `OSError`) before anything is written;
`connectRaise` models `urlopen` raising an exception outside those types
(e.g. `http.client.InvalidURL` for a nonnumeric port) before anything is
written; `streamFail` models `copyfileobj` raising a caught type after
`written` bytes reached the destination file (opened with mode `wb`);
`streamRaise` models `copyfileobj` raising an uncaught type (e.g.
`http.client.IncompleteRead`) after `written` bytes reached the file; `ok` is
a completed transfer. -/
inductive DlOutcome where
  | connectFail
  | connectRaise
  | streamFail (written : PyStr)
  | streamRaise (written : PyStr)
  | ok (content : PyStr)
deriving DecidableEq

/-- Result of one `download_file` call: `.ok` is a normal return (the new
directory state, plus `some destination` on success or `none` when the
transfer raised a caught type), `.error` is an uncaught exception propagating
out of the call, carrying the directory state at the moment of the raise (a
partially written file stays on disk). -/
inductive DlStep where
  | ok (res : FS × Option PyStr)
  | error (e : PyErr) (fs : FS)
deriving DecidableEq

/-- The oracle world of one run: the initial page fetch result (`none` when
`fetch_html` raises `HTTPError`/`URLError`) and the per-URL transfer
outcome. -/
structure World where
  page : Option PyStr
  dl : PyStr → DlOutcome

/-- `download_file` (lines 60-79): derive the filename, pick a non-colliding
destination unless overwriting, then transfer.  A normal return carries the
new directory state and `some destination` on success, `none` when the
transfer raised one of the caught exception types; the uncaught `ValueError`
of `urlparse` and the uncaught transfer exceptions (`http.client.InvalidURL`,
`IncompleteRead`, ...) propagate as `.error` with the directory state at the
raise. -/
def download_file (w : World) (fs : FS) (url : PyStr) (overwrite : Bool) : DlStep :=
  match filenameFor url with
  | .error e => .error e fs
  | .ok filename =>
    let dest := chooseDest fs.hasFile filename overwrite (fs.files.length + 1)
    match w.dl url with
    | .connectFail => .ok (fs, none)
    | .connectRaise => .error .httpException fs
    | .streamFail written => .ok (fs.setFile dest (.bytes written), none)
    | .streamRaise written => .error .httpException (fs.setFile dest (.bytes written))
    | .ok content => .ok (fs.setFile dest (.bytes content), some dest)

/-- The download loop of `main` (lines 141-148): sequentially download every
link, collecting destinations of successes and URLs of caught failures, in
order.  The result is `(crashed, directory state, successes, failures)`:
`crashed = true` when an uncaught exception (the `ValueError` of `urlparse`
or a transfer exception outside `(HTTPError, URLError, OSError)`, none of
which the loop's `except` clause catches) aborted the loop; the successes and
caught failures of the links processed before the abort are kept. -/
def runDownloads (w : World) (ow : Bool) : FS → List PyStr → Bool × FS × List PyStr × List PyStr
  | fs, [] => (false, fs, [], [])
  | fs, u :: rest =>
    match download_file w fs u ow with
    | .error _ fsE => (true, fsE, [], [])
    | .ok (fs1, some d) =>
      let r := runDownloads w ow fs1 rest
      (r.1, r.2.1, d :: r.2.2.1, r.2.2.2)
    | .ok (fs1, none) =>
      let r := runDownloads w ow fs1 rest
      (r.1, r.2.1, r.2.2.1, u :: r.2.2.2)

/-- `write_manifest` (lines 82-96): the record written to
`<output>/manifest.json` for the given successfully downloaded destination
names (each a bare filename inside the output directory, so the path relative
to the manifest's directory is the name itself). -/
def write_manifest (source_url : PyStr) (names : List PyStr) : Manifest :=
  ⟨source_url, names.length, names.map fun n => ⟨n, n, source_url⟩⟩

/-- Command-line options of one invocation. -/
structure Args where
  url : PyStr
  dryRun : Bool
  overwrite : Bool

/-- Observable outcome of one run: the process exit code (1 both for the
`return 1` of a fetch failure and for an uncaught exception terminating the
interpreter), the final output-directory state, the destinations downloaded,
the URLs reported on stderr, and the manifest-write event. -/
structure RunResult where
  exit : Nat
  fs : FS
  downloaded : List PyStr
  failed : List PyStr
  manifestWritten : Option Manifest
deriving DecidableEq

/-- The name of the manifest file. -/
def manifestName : PyStr := "manifest.json".data

/-- The page text of the worked example of the specification:
`<a href="move.mp3">`. -/
def c1Html : PyStr := "<a href=".data ++ [dquote] ++ "move.mp3".data ++ [dquote, '>']

/-- The page URL of the worked example of the specification. -/
def c1Base : PyStr := "https://x.com/sfx/".data

/-- A page text on which `urljoin` raises `ValueError` (netloc `[a` has an
unmatched bracket). -/
def c2Html : PyStr := "http://[a/x.mp3".data

/-- A page URL for the `ValueError` counterexample. -/
def c2Base : PyStr := "http://e.com/".data

/-- A concrete URL for the collision-policy witness. -/
def c4Url : PyStr := "https://x.com/sfx/move.mp3".data

/-- An output directory already holding `move.mp3` and `move-1.mp3`. -/
def c4FS : FS := ⟨true, [("move.mp3".data, .bytes []), ("move-1.mp3".data, .bytes [])]⟩

/-- A world where every transfer succeeds with body `DATA`. -/
def c4World : World := ⟨none, fun _ => .ok "DATA".data⟩

/-- The part of `main` after `ensure_directory` (lines 139-157): run the
download loop on the directory-ready state, then write the manifest exactly
when at least one download succeeded; a crash of the loop exits 1 without a
manifest. -/
def downloadStage (args : Args) (w : World) (fs1 : FS) (links : List PyStr) : RunResult :=
  let r := runDownloads w args.overwrite fs1 links
  if r.1 then ⟨1, r.2.1, r.2.2.1, r.2.2.2, none⟩
  else if r.2.2.1 = [] then ⟨0, r.2.1, r.2.2.1, r.2.2.2, none⟩
  else
    let m := write_manifest args.url r.2.2.1
    ⟨0, r.2.1.setFile manifestName (.manifestFile m), r.2.2.1, r.2.2.2, some m⟩

/-- `main` (lines 117-157): fetch, extract, stop on zero links, stop on
dry-run, ensure the output directory, then the download stage. -/
def main (args : Args) (w : World) (fs₀ : FS) : RunResult :=
  match w.page with
  | none => ⟨1, fs₀, [], [args.url], none⟩
  | some html =>
    match extract_links html args.url with
    | .error _ => ⟨1, fs₀, [], [], none⟩
    | .ok links =>
      if links = [] then ⟨0, fs₀, [], [], none⟩
      else if args.dryRun then ⟨0, fs₀, [], [], none⟩
      else downloadStage args w ⟨true, fs₀.files⟩ links

/-- Does the transfer of this URL fail with one of the caught exception
types? -/
def dlFails (w : World) (u : PyStr) : Bool :=
  match w.dl u with
  | .connectFail => true
  | .streamFail _ => true
  | _ => false

/-- Does the transfer of this URL raise an exception outside
`(HTTPError, URLError, OSError)`, which the loop does not catch? -/
def dlRaises (w : World) (u : PyStr) : Bool :=
  match w.dl u with
  | .connectRaise => true
  | .streamRaise _ => true
  | _ => false

/-- The empty initial output-directory state: not yet created, no files. -/
def emptyFS : FS := ⟨false, []⟩

/-- A page text whose only audio reference is the bare absolute URL
`http://h/p.mp3`. -/
def c6Html : PyStr := "http://h/p.mp3".data

/-- The default arguments of the driver counterexamples: non-dry-run,
no overwrite, page `http://e.com/`. -/
def c6Args : Args := ⟨"http://e.com/".data, false, false⟩

/-- A world where the fetch succeeds with `c6Html` and every transfer fails
mid-stream after `PAR` reached the file. -/
def c6World : World := ⟨some c6Html, fun _ => .streamFail "PAR".data⟩

/-- A world where the fetch succeeds but the page (`c2Html`) makes link
extraction raise `ValueError`. -/
def c5World : World := ⟨some c2Html, fun _ => .connectFail⟩

/-- A world where the fetch succeeds with a page containing no audio links. -/
def c9World : World := ⟨some "no audio links here".data, fun _ => .connectFail⟩

/-- A world where the fetch succeeds with `c6Html` and every transfer
completes with body `DATA`. -/
def c10World : World := ⟨some c6Html, fun _ => .ok "DATA".data⟩

/-- The manifest a run of `c10World` writes. -/
def c10Manifest : Manifest := write_manifest "http://e.com/".data ["p.mp3".data]

/-- A page text with two absolute audio links (`http://h/p.mp3` sorts before
`http://h/q.mp3`). -/
def c7Html : PyStr := "http://h/p.mp3 http://h/q.mp3".data

/-- A world where the fetch succeeds with `c7Html`, the transfer of
`http://h/p.mp3` completes with body `DATA`, and every other transfer raises
an exception outside the caught types (as `urlopen` does for a URL with a
nonnumeric port, `http.client.InvalidURL`). -/
def c7World : World :=
  ⟨some c7Html, fun u => if u = "http://h/p.mp3".data then .ok "DATA".data else .connectRaise⟩

/-- An extension chunk: a dot followed (case-insensitively) by one of the six
extension names, exactly. -/
def isExtChunk (E : PyStr) : Prop :=
  ∃ e ∈ extNames, ciPre ('.' :: e) E = true ∧ E.length = e.length + 1

/-- The shape every matched text of either pattern has: an extension chunk
followed only by an optional part that begins with `?`. -/
def Shape (s : PyStr) : Prop :=
  ∃ A E Q, s = A ++ E ++ Q ∧ isExtChunk E ∧ (Q = [] ∨ Q.head? = some '?')

/-- Intermediate invariant carried through `urljoin`: an extension chunk
followed only by an optional part beginning with `?` or `#`. -/
def ChunkTail (u : PyStr) : Prop :=
  ∃ p E q, u = p ++ E ++ q ∧ isExtChunk E ∧
    (q = [] ∨ q.head? = some '?' ∨ q.head? = some '#')

/-- The amended C3 invariant on an output URL: it ends in one of the six
audio extensions, optionally followed by a trailing part that begins with
`?` or `#`. -/
def AudioTail (u : PyStr) : Prop :=
  ∃ p q, u = p ++ q ∧ endsAudio p = true ∧
    (q = [] ∨ q.head? = some '?' ∨ q.head? = some '#')

/-- The invariant claimed by the specification: the URL ends in one of the
six audio extensions after ignoring an optional trailing part beginning with
`?` (read generously: some such split exists). -/
def EndsAudioModQuery (u : PyStr) : Prop :=
  ∃ p q, u = p ++ q ∧ endsAudio p = true ∧ (q = [] ∨ q.head? = some '?')

/-- Characters that can occur in an extension chunk after lower-casing. -/
def extAlphabet : PyStr :=
  ['.', 'm', 'p', '3', 'w', 'a', 'v', 'o', 'g', 'f', 'l', 'c', '4']

/-- A character free of every separator relevant to URL parsing: not `#`,
`?`, `/`, `;`, `:`, not tab/CR/LF, and not a C0 control or space. -/
def SepOK (c : Char) : Prop :=
  c ≠ '#' ∧ c ≠ '?' ∧ c ≠ '/' ∧ c ≠ ';' ∧ c ≠ ':' ∧
  c ≠ '\t' ∧ c ≠ '\r' ∧ c ≠ '\n' ∧ 32 < c.toNat

/-- A string ending in an extension chunk. -/
def EndsE (s : PyStr) : Prop := ∃ X E, isExtChunk E ∧ s = X ++ E

/-- The query/fragment appending steps that close `urlunsplit`. -/
def qfSteps (u query frag : PyStr) : PyStr :=
  let u2 := if query ≠ [] then u ++ '?' :: query else u
  if frag ≠ [] then u2 ++ '#' :: frag else u2

/-- The scheme/netloc/path assembly steps that open `urlunsplit`. -/
def unsplitBase (scheme netloc path : PyStr) : PyStr :=
  let url :=
    if netloc ≠ [] ∨ (scheme ≠ [] ∧ uses_netloc.contains scheme ∧ path.take 2 ≠ ['/', '/']) then
      '/' :: '/' :: (netloc ++ (if path ≠ [] ∧ path.head? ≠ some '/' then '/' :: path else path))
    else path
  if scheme ≠ [] then scheme ++ ':' :: url else url

/-- The shapes an `urlsplit` result of a `Shape` URL can take: the chunk ends
the netloc (with an empty path), or ends the path, or sits in the query or in
the fragment followed only by an optional `?`-initiated tail. -/
def Split5Good (s : Split5) : Prop :=
  (EndsE s.netloc ∧ s.path = []) ∨ EndsE s.path ∨ Shape s.query ∨ Shape s.frag

/-- The shapes an `urlparse` result of a `Shape` URL can take: as for
`urlsplit`, with the chunk possibly moved from the path into the params. -/
def Parse6Good (u : Parse6) : Prop :=
  (EndsE u.netloc ∧ u.path = [] ∧ u.params = []) ∨
  (EndsE u.path ∧ u.params = []) ∨
  EndsE u.params ∨ Shape u.query ∨ Shape u.frag

/-- A page text whose single absolute match carries an empty query followed
by a fragment (`https://x.com/a.mp3?#b`). -/
def c3Html : PyStr := "https://x.com/a.mp3?#b".data

/-- The page URL of the C3 counterexample. -/
def c3Base : PyStr := "https://x.com/".data

/-- The single URL extracted from `c3Html`: the empty query is dropped and
the fragment survives, leaving a URL that does not end in an audio extension
even after removing a `?`-initiated tail. -/
def c3Out : PyStr := "https://x.com/a.mp3#b".data

/-! Theorems. -/

theorem lexLe_total : ∀ a b : PyStr, lexLe a b = true ∨ lexLe b a = true
  | [], _ => by left; rfl
  | _ :: _, [] => by right; rfl
  | a :: as1, b :: bs => by
    by_cases h : a = b
    · subst h
      simp only [lexLe, if_pos rfl]
      exact lexLe_total as1 bs
    · rcases lt_or_gt_of_ne h with hlt | hgt
      · left
        simp only [lexLe, if_neg h]
        exact decide_eq_true hlt
      · right
        simp only [lexLe, if_neg (Ne.symm h)]
        exact decide_eq_true hgt

theorem lexLe_trans : ∀ a b c : PyStr, lexLe a b = true → lexLe b c = true → lexLe a c = true
  | [], _, _ => by intro _ _; rfl
  | _ :: _, [], _ => by intro h _; exact absurd h (by simp [lexLe])
  | _ :: _, _ :: _, [] => by intro _ h; exact absurd h (by simp [lexLe])
  | a :: as1, b :: bs, c :: cs => by
    intro h1 h2
    simp only [lexLe] at h1 h2 ⊢
    by_cases hab : a = b
    · subst hab
      by_cases hbc : a = c
      · subst hbc
        rw [if_pos rfl] at h1 h2 ⊢
        exact lexLe_trans _ _ _ h1 h2
      · rw [if_pos rfl] at h1
        rw [if_neg hbc] at h2 ⊢
        exact h2
    · rw [if_neg hab] at h1
      replace h1 : a < b := of_decide_eq_true h1
      by_cases hbc : b = c
      · subst hbc
        rw [if_neg hab]
        exact decide_eq_true h1
      · rw [if_neg hbc] at h2
        replace h2 : b < c := of_decide_eq_true h2
        have hac : a < c := lt_trans h1 h2
        rw [if_neg (ne_of_lt hac)]
        exact decide_eq_true hac

instance : IsTotal PyStr pyLe := ⟨lexLe_total⟩

instance : IsTrans PyStr pyLe := ⟨fun a b c => lexLe_trans a b c⟩

/-- C1: the specification's worked example fails on the code: on page text
`<a href="move.mp3">` with page URL `https://x.com/sfx/`, `extract_links`
returns the empty list rather than a list containing
`https://x.com/sfx/move.mp3`, because the raw f-string `\\s` in the attribute
pattern compiles to a literal backslash followed by `s*`, so the pattern only
matches attribute texts of the shape `href\=\"...\"` and never plain HTML. -/
theorem c1_example_extracts_nothing : extract_links c1Html c1Base = .ok [] := by decide

/-- C2 (counterexample): `extract_links` does not return a list for every
page text and base URL: on the page text `http://[a/x.mp3` (matched by the
absolute-URL pattern) it propagates the `ValueError` that `urlsplit` raises
for a netloc containing `[` without `]`, so there is no output list at all. -/
theorem c2_extract_links_raises :
    extract_links c2Html c2Base = .error .valueError ∧
    ∀ l : List PyStr, extract_links c2Html c2Base ≠ .ok l := by
  refine ⟨by decide, ?_⟩
  intro l h
  rw [show extract_links c2Html c2Base = .error .valueError from by decide] at h
  exact Except.noConfusion h

/-- C2 (amended): whenever `extract_links` returns a list (it raises
`ValueError` on some inputs), that list is sorted lexicographically and free
of duplicates, and on any page text in which neither pattern matches it
returns the empty list (not an error); as a pure function of the page text
and page URL it is deterministic. -/
theorem c2_extract_links_sorted_nodup (html base : PyStr) :
    (∀ l, extract_links html base = .ok l → l.Sorted pyLe ∧ l.Nodup) ∧
    (findallCombined html = [] → findallAbsolute html = [] →
      extract_links html base = .ok []) := by
  constructor
  · intro l hl
    unfold extract_links at hl
    cases h1 : mapME (urljoin base) (findallCombined html) with
    | error e => rw [h1] at hl; exact absurd hl (by simp [Bind.bind, Except.bind])
    | ok cs =>
      cases h2 : mapME (urljoin base) (findallAbsolute html) with
      | error e => rw [h1, h2] at hl; exact absurd hl (by simp [Bind.bind, Except.bind])
      | ok es =>
        rw [h1, h2] at hl
        simp only [Bind.bind, Except.bind] at hl
        cases hl
        exact ⟨List.sorted_insertionSort pyLe _,
          ((List.perm_insertionSort pyLe _).nodup_iff).mpr (List.nodup_dedup _)⟩
  · intro h1 h2
    unfold extract_links
    rw [h1, h2]
    rfl

/-- Witness for C2: a run of the amended theorem at concrete inputs. -/
theorem c2_extract_links_sorted_nodup_witness :
    (List.Sorted pyLe ["http://y/b.wav".data] ∧ (["http://y/b.wav".data] : List PyStr).Nodup) ∧
    extract_links "no links here".data "https://x.com/".data = .ok [] :=
  ⟨(c2_extract_links_sorted_nodup "http://y/b.wav".data []).1 _ (by decide),
   (c2_extract_links_sorted_nodup "no links here".data "https://x.com/".data).2
     (by decide) (by decide)⟩

theorem natReprCore_val (fuel : Nat) : ∀ n, n < fuel → ∀ a,
    (natReprCore fuel n).foldl (fun x c => x * 10 + (c.toNat - 48)) a
      = a * 10 ^ (natReprCore fuel n).length + n := by
  induction fuel with
  | zero => intro n h; omega
  | succ f ih =>
    intro n h a
    by_cases h10 : n < 10
    · simp only [natReprCore, if_pos h10]
      have hc : (Char.ofNat (48 + n)).toNat = 48 + n := by interval_cases n <;> rfl
      simp only [List.foldl, List.length_cons, List.length_nil, hc, pow_one]
      omega
    · simp only [natReprCore, if_neg h10]
      have hdiv : n / 10 < f := by
        have h2 : n / 10 < n := Nat.div_lt_self (by omega) (by norm_num)
        omega
      rw [List.foldl_append, ih (n / 10) hdiv a]
      have hm : n % 10 < 10 := Nat.mod_lt _ (by norm_num)
      have hc : (Char.ofNat (48 + n % 10)).toNat = 48 + n % 10 := by
        set m := n % 10 with hmdef
        interval_cases m <;> rfl
      simp only [List.foldl, List.length_append, List.length_cons, List.length_nil, hc,
        Nat.add_sub_cancel_left]
      have key : (a * 10 ^ (natReprCore f (n / 10)).length + n / 10) * 10 + n % 10
          = a * (10 ^ (natReprCore f (n / 10)).length * 10) + (n / 10 * 10 + n % 10) := by ring
      rw [key, Nat.div_add_mod']
      simp [pow_succ]

theorem natRepr_inj (m n : Nat) (h : natRepr m = natRepr n) : m = n := by
  have hm := natReprCore_val (m + 1) m (by omega) 0
  have hn := natReprCore_val (n + 1) n (by omega) 0
  unfold natRepr at h
  rw [h] at hm
  simp only [Nat.zero_mul, Nat.zero_add] at hm hn
  omega

theorem cand_inj (st su : PyStr) (k1 k2 : Nat) (h : cand st su k1 = cand st su k2) :
    k1 = k2 := by
  unfold cand at h
  simp only [List.append_cancel_left_eq, List.append_cancel_right_eq, List.cons.injEq,
    true_and] at h
  exact natRepr_inj _ _ h

theorem collisionLoop_first_free (ex : PyStr → Bool) (st su : PyStr) :
    ∀ fuel c, (∃ j, j ≤ fuel ∧ ex (cand st su (c + j)) = false) →
      ∃ j, j ≤ fuel ∧ collisionLoop ex st su c fuel = cand st su (c + j) ∧
        ex (cand st su (c + j)) = false ∧ ∀ i, i < j → ex (cand st su (c + i)) = true := by
  intro fuel
  induction fuel with
  | zero =>
    rintro c ⟨j, hj, hfree⟩
    have hj0 : j = 0 := by omega
    subst hj0
    exact ⟨0, le_refl _, by simp [collisionLoop], hfree, fun i hi => absurd hi (by omega)⟩
  | succ f ih =>
    rintro c ⟨j, hj, hfree⟩
    by_cases hc : ex (cand st su c) = true
    · have hj0 : j ≠ 0 := by
        intro h0
        subst h0
        rw [Nat.add_zero, hc] at hfree
        cases hfree
      obtain ⟨j', rfl⟩ : ∃ j', j = j' + 1 := ⟨j - 1, by omega⟩
      have hex : ∃ jj, jj ≤ f ∧ ex (cand st su (c + 1 + jj)) = false :=
        ⟨j', by omega, by rw [show c + 1 + j' = c + (j' + 1) by omega]; exact hfree⟩
      obtain ⟨jj, hjj, heq, hfr, hall⟩ := ih (c + 1) hex
      refine ⟨jj + 1, by omega, ?_, ?_, ?_⟩
      · rw [show collisionLoop ex st su c (f + 1) = collisionLoop ex st su (c + 1) f from by
          simp [collisionLoop, hc]]
        rw [heq, show c + 1 + jj = c + (jj + 1) from by omega]
      · rw [show c + (jj + 1) = c + 1 + jj from by omega]
        exact hfr
      · intro i hi
        cases i with
        | zero => simpa using hc
        | succ i' =>
          rw [show c + (i' + 1) = c + 1 + i' from by omega]
          exact hall i' (by omega)
    · replace hc : ex (cand st su c) = false := by
        cases hval : ex (cand st su c)
        · rfl
        · exact absurd hval hc
      refine ⟨0, Nat.zero_le _, ?_, by simpa using hc, fun i hi => absurd hi (by omega)⟩
      simp [collisionLoop, hc]

theorem exists_free_cand (N : List PyStr) (st su : PyStr) (c : Nat) :
    ∃ j, j ≤ N.length ∧ cand st su (c + j) ∉ N := by
  by_contra hcon
  push_neg at hcon
  have hinj : Function.Injective (fun j => cand st su (c + j)) := by
    intro x y hxy
    have := cand_inj st su (c + x) (c + y) hxy
    omega
  have hnd : ((List.range (N.length + 1)).map fun j => cand st su (c + j)).Nodup :=
    List.Nodup.map hinj (List.nodup_range _)
  have hsub : ((List.range (N.length + 1)).map fun j => cand st su (c + j)) ⊆ N := by
    intro x hx
    simp only [List.mem_map, List.mem_range] at hx
    obtain ⟨j, hj, rfl⟩ := hx
    exact hcon j (by omega)
  have hlen := (List.subperm_of_subset hnd hsub).length_le
  simp only [List.length_map, List.length_range] at hlen
  omega

theorem hasFile_iff_mem (fs : FS) (nm : PyStr) :
    fs.hasFile nm = true ↔ nm ∈ fs.files.map Prod.fst := by
  unfold FS.hasFile
  exact List.elem_iff

theorem find?_name_filter (l : List (PyStr × FileData)) (nm nm' : PyStr) (h : nm' ≠ nm) :
    (l.filter fun p => !(p.1 == nm)).find? (fun p => p.1 == nm')
      = l.find? (fun p => p.1 == nm') := by
  induction l with
  | nil => rfl
  | cons a t ih =>
    by_cases ha : a.1 = nm
    · have hbeq : (a.1 == nm) = true := beq_iff_eq.mpr ha
      have hbeq2 : (a.1 == nm') = false := by
        rw [beq_eq_false_iff_ne]
        rw [ha]
        exact fun hx => h hx.symm
      simp [List.filter, List.find?, hbeq, hbeq2, ih]
    · have hbeq : (a.1 == nm) = false := beq_eq_false_iff_ne.mpr ha
      by_cases ha2 : a.1 = nm'
      · have hbeq2 : (a.1 == nm') = true := beq_iff_eq.mpr ha2
        simp [List.filter, List.find?, hbeq, hbeq2]
      · have hbeq2 : (a.1 == nm') = false := beq_eq_false_iff_ne.mpr ha2
        simp [List.filter, List.find?, hbeq, hbeq2, ih]

theorem read_setFile_self (fs : FS) (nm : PyStr) (d : FileData) :
    (fs.setFile nm d).read nm = some d := by
  unfold FS.setFile FS.read
  rw [List.find?_append]
  have hnone : (fs.files.filter fun p => !(p.1 == nm)).find? (fun p => p.1 == nm) = none := by
    rw [List.find?_eq_none]
    intro x hx
    have := (List.mem_filter.mp hx).2
    simp only [Bool.not_eq_true'] at this
    simp [this]
  rw [hnone]
  simp [List.find?]

theorem read_setFile_ne (fs : FS) (nm nm' : PyStr) (d : FileData) (h : nm' ≠ nm) :
    (fs.setFile nm d).read nm' = fs.read nm' := by
  unfold FS.setFile FS.read
  rw [List.find?_append, find?_name_filter fs.files nm nm' h]
  cases hf : fs.files.find? (fun p => p.1 == nm') with
  | some v => rfl
  | none =>
    have hbeq : (nm == nm') = false := by
      rw [beq_eq_false_iff_ne]
      exact fun hx => h hx.symm
    simp [List.find?, hbeq]

/-- C4: `download_file`'s choice of destination.  With `filenameFor url`
returning `fn`: (a) `fn` is the pathlib name of the URL's path (its last
non-empty, non-dot segment), or `audio` when that name is empty, with `.mp3`
appended when the lower-cased name does not already end in one of the six
audio extensions; (b) with overwrite on, the original name is reused and the
file's contents are replaced by the transferred content; (c) with overwrite
off, the chosen destination does not collide with any existing file — it is
`fn` itself when free, and otherwise the first unused candidate
`stem-1`, `stem-2`, … — and no existing file's contents change. -/
theorem c4_download_file_destination (w : World) (fs : FS) (url fn : PyStr) (ow : Bool)
    (hfn : filenameFor url = .ok fn) :
    (∀ p, urlparse url [] = .ok p →
      fn = (if AUDIO_EXTENSIONS.any (fun e => e.isSuffixOf
                ((if pathlibName p.path = [] then "audio".data else pathlibName p.path).map lowerC))
            then (if pathlibName p.path = [] then "audio".data else pathlibName p.path)
            else (if pathlibName p.path = [] then "audio".data else pathlibName p.path)
                  ++ ".mp3".data)) ∧
    (ow = true → ∀ content, w.dl url = .ok content →
      download_file w fs url true = .ok (fs.setFile fn (.bytes content), some fn) ∧
      (fs.setFile fn (.bytes content)).read fn = some (.bytes content)) ∧
    (ow = false →
      fs.hasFile (chooseDest fs.hasFile fn false (fs.files.length + 1)) = false ∧
      (fs.hasFile fn = false → chooseDest fs.hasFile fn false (fs.files.length + 1) = fn) ∧
      (fs.hasFile fn = true →
        ∃ k, 1 ≤ k ∧
          chooseDest fs.hasFile fn false (fs.files.length + 1)
            = cand (pathStemSuffix fn).1 (pathStemSuffix fn).2 k ∧
          ∀ i, 1 ≤ i → i < k →
            fs.hasFile (cand (pathStemSuffix fn).1 (pathStemSuffix fn).2 i) = true) ∧
      (∀ nm, fs.hasFile nm = true → ∀ fs2 r, download_file w fs url false = .ok (fs2, r) →
        fs2.read nm = fs.read nm)) := by
  refine ⟨?_, ?_, ?_⟩
  · intro p hp
    unfold filenameFor at hfn
    rw [hp] at hfn
    simp only [Bind.bind, Except.bind] at hfn
    by_cases hA : AUDIO_EXTENSIONS.any (fun e => e.isSuffixOf
        ((if pathlibName p.path = [] then "audio".data else pathlibName p.path).map lowerC)) = true
    · rw [if_pos hA] at hfn
      rw [if_pos hA]
      cases hfn
      rfl
    · rw [if_neg hA] at hfn
      rw [if_neg hA]
      cases hfn
      rfl
  · intro _ content hdl
    have hdest : chooseDest fs.hasFile fn true (fs.files.length + 1) = fn := by
      unfold chooseDest
      rw [if_neg]
      rintro ⟨-, hfalse⟩
      cases hfalse
    constructor
    · unfold download_file
      simp only [hfn, hdest, hdl]
    · exact read_setFile_self fs fn (.bytes content)
  · intro _
    -- analysis of the destination with overwrite off
    have hmain : fs.hasFile (chooseDest fs.hasFile fn false (fs.files.length + 1)) = false ∧
        (fs.hasFile fn = false → chooseDest fs.hasFile fn false (fs.files.length + 1) = fn) ∧
        (fs.hasFile fn = true →
          ∃ k, 1 ≤ k ∧
            chooseDest fs.hasFile fn false (fs.files.length + 1)
              = cand (pathStemSuffix fn).1 (pathStemSuffix fn).2 k ∧
            ∀ i, 1 ≤ i → i < k →
              fs.hasFile (cand (pathStemSuffix fn).1 (pathStemSuffix fn).2 i) = true) := by
      by_cases hex : fs.hasFile fn = true
      · unfold chooseDest
        rw [if_pos ⟨hex, rfl⟩]
        set st := (pathStemSuffix fn).1
        set su := (pathStemSuffix fn).2
        obtain ⟨j0, hj0, hout⟩ := exists_free_cand (fs.files.map Prod.fst) st su 1
        have hfree2 : ∃ j, j ≤ fs.files.length + 1 ∧ fs.hasFile (cand st su (1 + j)) = false := by
          refine ⟨j0, by simpa using Nat.le_succ_of_le hj0, ?_⟩
          cases hval : fs.hasFile (cand st su (1 + j0))
          · rfl
          · exact absurd ((hasFile_iff_mem fs _).mp hval) hout
        obtain ⟨j, hj, heq, hfr, hall⟩ :=
          collisionLoop_first_free fs.hasFile st su (fs.files.length + 1) 1 hfree2
        refine ⟨by rw [heq]; exact hfr, fun hcontra => absurd hex (by simp [hcontra]), ?_⟩
        intro _
        refine ⟨1 + j, by omega, heq, ?_⟩
        intro i hi1 hij
        have : i = 1 + (i - 1) := by omega
        rw [this]
        exact hall (i - 1) (by omega)
      · replace hex : fs.hasFile fn = false := by
          cases hval : fs.hasFile fn
          · rfl
          · exact absurd hval hex
        have hdest : chooseDest fs.hasFile fn false (fs.files.length + 1) = fn := by
          unfold chooseDest
          rw [if_neg]
          rintro ⟨h1, -⟩
          rw [hex] at h1
          cases h1
        exact ⟨by rw [hdest]; exact hex, fun _ => hdest, fun hcontra => by
          rw [hex] at hcontra; cases hcontra⟩
    refine ⟨hmain.1, hmain.2.1, hmain.2.2, ?_⟩
    intro nm hnm fs2 r hdl
    unfold download_file at hdl
    simp only [hfn] at hdl
    have hne : nm ≠ chooseDest fs.hasFile fn false (fs.files.length + 1) := by
      intro hx
      rw [hx] at hnm
      rw [hmain.1] at hnm
      cases hnm
    cases hout : w.dl url with
    | connectFail =>
      rw [hout] at hdl
      cases hdl
      rfl
    | connectRaise =>
      rw [hout] at hdl
      cases hdl
    | streamFail written =>
      rw [hout] at hdl
      cases hdl
      exact read_setFile_ne fs _ nm (.bytes written) hne
    | streamRaise written =>
      rw [hout] at hdl
      cases hdl
    | ok content =>
      rw [hout] at hdl
      cases hdl
      exact read_setFile_ne fs _ nm (.bytes content) hne

/-- Witness for C4: with `move.mp3` and `move-1.mp3` already present and
overwrite off, a download of `https://x.com/sfx/move.mp3` goes to
`move-2.mp3`, which exists in neither; with overwrite on it reuses
`move.mp3`. -/
theorem c4_download_file_destination_witness :
    (chooseDest c4FS.hasFile "move.mp3".data false (c4FS.files.length + 1) = "move-2.mp3".data ∧
      c4FS.hasFile (chooseDest c4FS.hasFile "move.mp3".data false (c4FS.files.length + 1)) = false) ∧
    download_file c4World c4FS c4Url true
      = .ok (c4FS.setFile "move.mp3".data (.bytes "DATA".data), some "move.mp3".data) := by
  have h := c4_download_file_destination c4World c4FS c4Url "move.mp3".data false (by decide)
  have h2 := c4_download_file_destination c4World c4FS c4Url "move.mp3".data true (by decide)
  refine ⟨⟨by decide, (h.2.2 rfl).1⟩, (h2.2.1 rfl "DATA".data (by decide)).1⟩

theorem download_file_cases (w : World) (fs : FS) (url fn : PyStr) (ow : Bool)
    (hfn : filenameFor url = .ok fn) :
    download_file w fs url ow =
      (match w.dl url with
       | .connectFail => .ok (fs, none)
       | .connectRaise => .error .httpException fs
       | .streamFail written =>
         .ok (fs.setFile (chooseDest fs.hasFile fn ow (fs.files.length + 1)) (.bytes written), none)
       | .streamRaise written =>
         .error .httpException
           (fs.setFile (chooseDest fs.hasFile fn ow (fs.files.length + 1)) (.bytes written))
       | .ok content =>
         .ok (fs.setFile (chooseDest fs.hasFile fn ow (fs.files.length + 1)) (.bytes content),
              some (chooseDest fs.hasFile fn ow (fs.files.length + 1)))) := by
  unfold download_file
  rw [hfn]

theorem runDownloads_dirExists (w : World) (ow : Bool) :
    ∀ links fs, (runDownloads w ow fs links).2.1.dirExists = fs.dirExists := by
  intro links
  induction links with
  | nil => intro fs; rfl
  | cons u rest ih =>
    intro fs
    unfold runDownloads
    cases hdf : download_file w fs u ow with
    | error e fsE =>
      have hdir : fsE.dirExists = fs.dirExists := by
        unfold download_file at hdf
        cases hfn : filenameFor u with
        | error e2 =>
          rw [hfn] at hdf
          cases hdf
          rfl
        | ok fn =>
          simp only [hfn] at hdf
          cases hdl : w.dl u <;> rw [hdl] at hdf <;> cases hdf <;> rfl
      exact hdir
    | ok pr =>
      obtain ⟨fs1, r⟩ := pr
      have hdir : fs1.dirExists = fs.dirExists := by
        unfold download_file at hdf
        cases hfn : filenameFor u with
        | error e2 =>
          rw [hfn] at hdf
          cases hdf
        | ok fn =>
          simp only [hfn] at hdf
          cases hdl : w.dl u <;> rw [hdl] at hdf <;> cases hdf <;> rfl
      cases r with
      | some d => simpa using (ih fs1).trans hdir
      | none => simpa using (ih fs1).trans hdir

theorem runDownloads_spec (w : World) (ow : Bool) :
    ∀ links fs, (∀ u ∈ links, ∃ fn, filenameFor u = .ok fn) →
      (∀ u ∈ links, dlRaises w u = false) →
      (runDownloads w ow fs links).1 = false ∧
      (runDownloads w ow fs links).2.2.2 = links.filter (dlFails w) ∧
      (runDownloads w ow fs links).2.2.1.length + (links.filter (dlFails w)).length
        = links.length := by
  intro links
  induction links with
  | nil => intro fs _ _; exact ⟨rfl, rfl, rfl⟩
  | cons u rest ih =>
    intro fs hall hnr
    obtain ⟨fn, hfn⟩ := hall u (List.mem_cons_self u rest)
    have hrest : ∀ v ∈ rest, ∃ g, filenameFor v = .ok g := fun v hv => hall v (List.mem_cons_of_mem u hv)
    have hnrest : ∀ v ∈ rest, dlRaises w v = false := fun v hv => hnr v (List.mem_cons_of_mem u hv)
    have hdf := download_file_cases w fs u fn ow hfn
    have hfilter : (u :: rest).filter (dlFails w)
        = if dlFails w u then u :: rest.filter (dlFails w) else rest.filter (dlFails w) :=
      List.filter_cons
    cases hdl : w.dl u with
    | connectFail =>
      rw [hdl] at hdf
      have hfail : dlFails w u = true := by simp [dlFails, hdl]
      rw [hfail, if_pos rfl] at hfilter
      unfold runDownloads
      rw [hdf]
      obtain ⟨i1, i2, i3⟩ := ih fs hrest hnrest
      refine ⟨i1, ?_, ?_⟩
      · show u :: (runDownloads w ow fs rest).2.2.2 = (u :: rest).filter (dlFails w)
        rw [hfilter, i2]
      · show (runDownloads w ow fs rest).2.2.1.length
            + ((u :: rest).filter (dlFails w)).length = (u :: rest).length
        rw [hfilter]
        simp only [List.length_cons]
        omega
    | connectRaise =>
      have := hnr u (List.mem_cons_self u rest)
      rw [show dlRaises w u = true from by simp [dlRaises, hdl]] at this
      cases this
    | streamFail written =>
      rw [hdl] at hdf
      have hfail : dlFails w u = true := by simp [dlFails, hdl]
      rw [hfail, if_pos rfl] at hfilter
      unfold runDownloads
      rw [hdf]
      set fs1 := fs.setFile (chooseDest fs.hasFile fn ow (fs.files.length + 1)) (.bytes written)
      obtain ⟨i1, i2, i3⟩ := ih fs1 hrest hnrest
      refine ⟨i1, ?_, ?_⟩
      · show u :: (runDownloads w ow fs1 rest).2.2.2 = (u :: rest).filter (dlFails w)
        rw [hfilter, i2]
      · show (runDownloads w ow fs1 rest).2.2.1.length
            + ((u :: rest).filter (dlFails w)).length = (u :: rest).length
        rw [hfilter]
        simp only [List.length_cons]
        omega
    | streamRaise written =>
      have := hnr u (List.mem_cons_self u rest)
      rw [show dlRaises w u = true from by simp [dlRaises, hdl]] at this
      cases this
    | ok content =>
      rw [hdl] at hdf
      have hfail : dlFails w u = false := by simp [dlFails, hdl]
      rw [hfail] at hfilter
      simp only [Bool.false_eq_true, if_false] at hfilter
      unfold runDownloads
      rw [hdf]
      set fs1 := fs.setFile (chooseDest fs.hasFile fn ow (fs.files.length + 1)) (.bytes content)
      obtain ⟨i1, i2, i3⟩ := ih fs1 hrest hnrest
      refine ⟨i1, ?_, ?_⟩
      · show (runDownloads w ow fs1 rest).2.2.2 = (u :: rest).filter (dlFails w)
        rw [hfilter, i2]
      · show (chooseDest fs.hasFile fn ow (fs.files.length + 1)
              :: (runDownloads w ow fs1 rest).2.2.1).length
            + ((u :: rest).filter (dlFails w)).length = (u :: rest).length
        rw [hfilter]
        simp only [List.length_cons]
        omega

theorem runDownloads_crash (w : World) (ow : Bool) :
    ∀ links fs, (∀ u ∈ links, ∃ fn, filenameFor u = .ok fn) →
      (∃ u ∈ links, dlRaises w u = true) →
      (runDownloads w ow fs links).1 = true := by
  intro links
  induction links with
  | nil =>
    intro fs _ hex
    obtain ⟨u, hu, -⟩ := hex
    cases hu
  | cons u rest ih =>
    intro fs hall hex
    obtain ⟨fn, hfn⟩ := hall u (List.mem_cons_self u rest)
    have hrest : ∀ v ∈ rest, ∃ g, filenameFor v = .ok g :=
      fun v hv => hall v (List.mem_cons_of_mem u hv)
    have hdf := download_file_cases w fs u fn ow hfn
    have hrestex : dlRaises w u = false → ∃ v ∈ rest, dlRaises w v = true := by
      intro hru
      obtain ⟨v, hv, hrv⟩ := hex
      rcases List.mem_cons.mp hv with rfl | hv2
      · rw [hru] at hrv
        cases hrv
      · exact ⟨v, hv2, hrv⟩
    unfold runDownloads
    cases hdl : w.dl u with
    | connectFail =>
      simp only [hdl] at hdf
      rw [hdf]
      exact ih fs hrest (hrestex (by simp [dlRaises, hdl]))
    | connectRaise =>
      simp only [hdl] at hdf
      rw [hdf]
    | streamFail written =>
      simp only [hdl] at hdf
      rw [hdf]
      exact ih _ hrest (hrestex (by simp [dlRaises, hdl]))
    | streamRaise written =>
      simp only [hdl] at hdf
      rw [hdf]
    | ok content =>
      simp only [hdl] at hdf
      rw [hdf]
      exact ih _ hrest (hrestex (by simp [dlRaises, hdl]))

theorem main_fetch_fail (args : Args) (w : World) (fs0 : FS) (hp : w.page = none) :
    main args w fs0 = ⟨1, fs0, [], [args.url], none⟩ := by
  unfold main
  rw [hp]

theorem main_extract_error (args : Args) (w : World) (fs0 : FS) (html : PyStr) (e : PyErr)
    (hp : w.page = some html) (hx : extract_links html args.url = .error e) :
    main args w fs0 = ⟨1, fs0, [], [], none⟩ := by
  simp only [main, hp, hx]

theorem main_ok_links (args : Args) (w : World) (fs0 : FS) (html : PyStr) (links : List PyStr)
    (hp : w.page = some html) (hx : extract_links html args.url = .ok links) :
    main args w fs0 =
      (if links = [] then ⟨0, fs0, [], [], none⟩
       else if args.dryRun then ⟨0, fs0, [], [], none⟩
       else downloadStage args w ⟨true, fs0.files⟩ links) := by
  simp only [main, hp, hx]

/-- C5 (counterexample): exit code 1 does not imply that the initial fetch
failed: with a successfully fetched page reading `http://[a/x.mp3`, link
extraction raises an uncaught `ValueError`, the interpreter terminates with
exit status 1, and yet the fetch succeeded. -/
theorem c5_exit_one_without_fetch_failure :
    (main c6Args c5World emptyFS).exit = 1 ∧ c5World.page ≠ none := by
  refine ⟨by decide, ?_⟩
  intro h
  exact Option.noConfusion (show some c2Html = (none : Option PyStr) from h)

/-- C5 (amended): the exit discipline of `main`.  A fetch failure exits 1
with the failed URL reported and no directory side effects; an uncaught
`ValueError` during extraction also exits 1 with no directory side effects;
an uncaught transfer exception (`http.client.InvalidURL` for a nonnumeric
port, `IncompleteRead`, ... — outside the loop's
`except (HTTPError, URLError, OSError)`) aborts the download loop and exits 1
with no manifest; every run in which extraction returns links whose filenames
all derive without error and in which (outside dry-run) no transfer raises an
uncaught exception exits 0 — including zero-link and zero-download runs — and
each per-link failure of a caught type is recorded by its URL without
stopping the loop (successes and caught failures partition the links). -/
theorem c5_exit_codes (args : Args) (w : World) (fs0 : FS) :
    (w.page = none → main args w fs0 = ⟨1, fs0, [], [args.url], none⟩) ∧
    (∀ html, w.page = some html → extract_links html args.url = .error .valueError →
      (main args w fs0).exit = 1 ∧ (main args w fs0).fs = fs0) ∧
    (∀ html links, w.page = some html → extract_links html args.url = .ok links →
      (∀ u ∈ links, ∃ fn, filenameFor u = .ok fn) →
      args.dryRun = false → (∃ u ∈ links, dlRaises w u = true) →
      (main args w fs0).exit = 1 ∧ (main args w fs0).manifestWritten = none) ∧
    (∀ html links, w.page = some html → extract_links html args.url = .ok links →
      (∀ u ∈ links, ∃ fn, filenameFor u = .ok fn) →
      (args.dryRun = false → ∀ u ∈ links, dlRaises w u = false) →
      (main args w fs0).exit = 0 ∧
      (args.dryRun = false → links ≠ [] →
        (main args w fs0).failed = links.filter (dlFails w) ∧
        (main args w fs0).downloaded.length + (main args w fs0).failed.length
          = links.length)) := by
  refine ⟨?_, ?_, ?_, ?_⟩
  · intro hp
    exact main_fetch_fail args w fs0 hp
  · intro html hp hx
    rw [main_extract_error args w fs0 html .valueError hp hx]
    exact ⟨rfl, rfl⟩
  · intro html links hp hx hall hdry hex
    have hnil : links ≠ [] := by
      obtain ⟨u, hu, -⟩ := hex
      intro hc
      rw [hc] at hu
      cases hu
    rw [main_ok_links args w fs0 html links hp hx, if_neg hnil,
      if_neg (by rw [hdry]; exact Bool.false_ne_true)]
    have hcr := runDownloads_crash w args.overwrite links ⟨true, fs0.files⟩ hall hex
    refine ⟨?_, ?_⟩ <;> simp only [downloadStage, hcr, if_true]
  · intro html links hp hx hall hnr
    rw [main_ok_links args w fs0 html links hp hx]
    by_cases hnil : links = []
    · rw [if_pos hnil]
      exact ⟨rfl, fun _ hne => absurd hnil hne⟩
    · rw [if_neg hnil]
      by_cases hdry : args.dryRun = true
      · rw [if_pos hdry]
        refine ⟨rfl, fun hdry2 _ => ?_⟩
        rw [hdry] at hdry2
        cases hdry2
      · have hdry2 : args.dryRun = false := by
          cases hd : args.dryRun
          · rfl
          · exact absurd hd hdry
        rw [if_neg hdry]
        obtain ⟨h1, h2, h3⟩ :=
          runDownloads_spec w args.overwrite links ⟨true, fs0.files⟩ hall (hnr hdry2)
        simp only [downloadStage, h1, Bool.false_eq_true, if_false]
        by_cases hds : (runDownloads w args.overwrite ⟨true, fs0.files⟩ links).2.2.1 = []
        · rw [if_pos hds]
          refine ⟨rfl, fun _ _ => ⟨h2, ?_⟩⟩
          show (runDownloads w args.overwrite ⟨true, fs0.files⟩ links).2.2.1.length
              + ((runDownloads w args.overwrite ⟨true, fs0.files⟩ links).2.2.2).length
              = links.length
          rw [h2]
          exact h3
        · rw [if_neg hds]
          refine ⟨rfl, fun _ _ => ⟨h2, ?_⟩⟩
          show (runDownloads w args.overwrite ⟨true, fs0.files⟩ links).2.2.1.length
              + ((runDownloads w args.overwrite ⟨true, fs0.files⟩ links).2.2.2).length
              = links.length
          rw [h2]
          exact h3

/-- Witness for C5: concrete runs discharging each hypothesis of the amended
exit-code theorem, including a mid-loop uncaught transfer exception. -/
theorem c5_exit_codes_witness :
    main c6Args ⟨none, fun _ => .connectFail⟩ emptyFS
      = ⟨1, emptyFS, [], [c6Args.url], none⟩ ∧
    ((main c6Args c5World emptyFS).exit = 1 ∧ (main c6Args c5World emptyFS).fs = emptyFS) ∧
    ((main c6Args c7World emptyFS).exit = 1 ∧
      (main c6Args c7World emptyFS).manifestWritten = none) ∧
    ((main c6Args c6World emptyFS).exit = 0 ∧
      (main c6Args c6World emptyFS).failed = [c6Html] ∧
      (main c6Args c6World emptyFS).downloaded.length
        + (main c6Args c6World emptyFS).failed.length = 1) := by
  refine ⟨(c5_exit_codes c6Args ⟨none, fun _ => .connectFail⟩ emptyFS).1 rfl,
    (c5_exit_codes c6Args c5World emptyFS).2.1 c2Html rfl (by decide), ?_, ?_⟩
  · exact (c5_exit_codes c6Args c7World emptyFS).2.2.1 c7Html
      ["http://h/p.mp3".data, "http://h/q.mp3".data] rfl (by decide)
      (by
        intro u hu
        rcases List.mem_cons.mp hu with rfl | hu2
        · exact ⟨"p.mp3".data, by decide⟩
        · rw [List.mem_singleton] at hu2
          rw [hu2]
          exact ⟨"q.mp3".data, by decide⟩)
      rfl ⟨"http://h/q.mp3".data, by decide, by decide⟩
  · have h := (c5_exit_codes c6Args c6World emptyFS).2.2.2 c6Html [c6Html] rfl (by decide)
      (by intro u hu; refine ⟨"p.mp3".data, ?_⟩; rw [List.mem_singleton] at hu; rw [hu]; decide)
      (by intro hd u hu; rw [List.mem_singleton] at hu; rw [hu]; decide)
    obtain ⟨he, hrest⟩ := h
    obtain ⟨hf, hl⟩ := hrest rfl (by intro hcon; cases hcon)
    refine ⟨he, ?_, ?_⟩
    · rw [hf]; decide
    · rw [hl]; decide

/-- C6 (counterexample): a transfer that fails mid-stream leaves a partial
file on disk: in a run whose only transfer fails during `copyfileobj` after
`PAR` was written, no download is reported as successful, yet `p.mp3` exists
in the output directory with the partial content. -/
theorem c6_partial_file_left :
    (main c6Args c6World emptyFS).downloaded = [] ∧
    (main c6Args c6World emptyFS).fs.read "p.mp3".data = some (.bytes "PAR".data) := by
  constructor <;> decide

/-- C6 (amended): a transfer that fails when opening the connection (before
the destination file is opened) leaves the directory unchanged and reports no
file; a destination reported as downloaded holds exactly the content of a
completed transfer; but a transfer failing mid-stream may leave a partial
file that is not reported as a success. -/
theorem c6_download_failure_effects (w : World) (fs : FS) (url : PyStr) (ow : Bool) :
    (w.dl url = .connectFail → ∀ x, download_file w fs url ow = .ok x → x = (fs, none)) ∧
    (∀ fs2 d, download_file w fs url ow = .ok (fs2, some d) →
      ∃ content, w.dl url = .ok content ∧ fs2.read d = some (.bytes content)) := by
  constructor
  · intro hdl x hx
    unfold download_file at hx
    cases hfn : filenameFor url with
    | error e =>
      rw [hfn] at hx
      cases hx
    | ok fn =>
      simp only [hfn] at hx
      rw [hdl] at hx
      cases hx
      rfl
  · intro fs2 d hx
    unfold download_file at hx
    cases hfn : filenameFor url with
    | error e =>
      rw [hfn] at hx
      cases hx
    | ok fn =>
      simp only [hfn] at hx
      cases hdl : w.dl url <;> rw [hdl] at hx
      · cases hx
      · cases hx
      · cases hx
      · cases hx
      · rename_i content
        cases hx
        exact ⟨content, rfl, read_setFile_self fs _ (.bytes content)⟩

/-- Witness for C6: the amended theorem at concrete inputs — a connection
failure leaves the directory unchanged, and a completed transfer stores its
content at the reported destination. -/
theorem c6_download_failure_effects_witness :
    ((emptyFS, (none : Option PyStr)) = (emptyFS, none)) ∧
    (∃ content, c10World.dl c6Html = .ok content ∧
      (emptyFS.setFile "p.mp3".data (.bytes "DATA".data)).read "p.mp3".data
        = some (.bytes content)) := by
  refine ⟨(c6_download_failure_effects ⟨none, fun _ => .connectFail⟩ emptyFS c6Html false).1
    rfl (emptyFS, none) (by decide), ?_⟩
  exact (c6_download_failure_effects c10World emptyFS c6Html false).2
    (emptyFS.setFile "p.mp3".data (.bytes "DATA".data)) "p.mp3".data (by decide)

/-- C7 (counterexample): a run can succeed at a download and still write no
manifest: with links `http://h/p.mp3` (transfer completes, `p.mp3` stored
with its full content and reported downloaded) and `http://h/q.mp3` (its
transfer raises an exception outside `(HTTPError, URLError, OSError)`, as
`urlopen` does on a URL with a nonnumeric port), the loop aborts after the
success and before `write_manifest`, the interpreter exits 1 and no manifest
exists — refuting "the manifest is written iff at least one download
succeeded". -/
theorem c7_success_without_manifest :
    (main c6Args c7World emptyFS).downloaded = ["p.mp3".data] ∧
    (main c6Args c7World emptyFS).fs.read "p.mp3".data = some (.bytes "DATA".data) ∧
    (main c6Args c7World emptyFS).manifestWritten = none ∧
    (main c6Args c7World emptyFS).exit = 1 := by
  refine ⟨by decide, by decide, by decide, by decide⟩

/-- C7 (amended): the manifest discipline of `main`, in runs whose link
filenames all derive without error.  When no transfer raises an uncaught
exception, the manifest is written — replacing any prior file of that name in
the output directory — exactly when at least one download succeeded; its
`files` list holds exactly the successfully downloaded files in order, its
`file_count` equals that list's length, and its `source_page` is the page
URL.  When some transfer raises an uncaught exception
(`http.client.InvalidURL`, `IncompleteRead`, ...), the loop aborts before
`write_manifest` and no manifest is written, even when earlier downloads
succeeded. -/
theorem c7_manifest (args : Args) (w : World) (fs0 : FS)
    (hnc : ∀ html links, w.page = some html → extract_links html args.url = .ok links →
      ∀ u ∈ links, ∃ fn, filenameFor u = .ok fn) :
    ((∀ html links, w.page = some html → extract_links html args.url = .ok links →
        ∀ u ∈ links, dlRaises w u = false) →
      ((main args w fs0).manifestWritten.isSome ↔ (main args w fs0).downloaded ≠ []) ∧
      (∀ m, (main args w fs0).manifestWritten = some m →
        m.files = (main args w fs0).downloaded.map (fun n => ⟨n, n, args.url⟩) ∧
        m.file_count = m.files.length ∧
        m.source_page = args.url ∧
        (main args w fs0).fs.read manifestName = some (.manifestFile m))) ∧
    (∀ html links, w.page = some html → extract_links html args.url = .ok links →
      args.dryRun = false → (∃ u ∈ links, dlRaises w u = true) →
      (main args w fs0).manifestWritten = none) := by
  constructor
  · intro hnr
    cases hp : w.page with
    | none =>
      rw [main_fetch_fail args w fs0 hp]
      exact ⟨by simp, fun m hm => Option.noConfusion hm⟩
    | some html =>
      cases hx : extract_links html args.url with
      | error e =>
        rw [main_extract_error args w fs0 html e hp hx]
        exact ⟨by simp, fun m hm => Option.noConfusion hm⟩
      | ok links =>
        rw [main_ok_links args w fs0 html links hp hx]
        by_cases hnil : links = []
        · rw [if_pos hnil]
          exact ⟨by simp, fun m hm => Option.noConfusion hm⟩
        · rw [if_neg hnil]
          by_cases hdry : args.dryRun = true
          · rw [if_pos hdry]
            exact ⟨by simp, fun m hm => Option.noConfusion hm⟩
          · rw [if_neg hdry]
            obtain ⟨h1, -, -⟩ := runDownloads_spec w args.overwrite links ⟨true, fs0.files⟩
              (hnc html links hp hx) (hnr html links hp hx)
            simp only [downloadStage, h1, Bool.false_eq_true, if_false]
            by_cases hds : (runDownloads w args.overwrite ⟨true, fs0.files⟩ links).2.2.1 = []
            · rw [if_pos hds]
              refine ⟨by simp [hds], fun m hm => Option.noConfusion hm⟩
            · rw [if_neg hds]
              refine ⟨by simp [hds], ?_⟩
              intro m hm
              have hm2 : some (write_manifest args.url
                  (runDownloads w args.overwrite ⟨true, fs0.files⟩ links).2.2.1) = some m := hm
              injection hm2 with hmeq
              subst hmeq
              refine ⟨rfl, (List.length_map _ _).symm, rfl, ?_⟩
              exact read_setFile_self _ manifestName _
  · intro html links hp hx hdry hex
    have hnil : links ≠ [] := by
      obtain ⟨u, hu, -⟩ := hex
      intro hc
      rw [hc] at hu
      cases hu
    rw [main_ok_links args w fs0 html links hp hx, if_neg hnil,
      if_neg (by rw [hdry]; exact Bool.false_ne_true)]
    have hcr := runDownloads_crash w args.overwrite links ⟨true, fs0.files⟩
      (hnc html links hp hx) hex
    simp only [downloadStage, hcr, if_true]

/-- Witness for C7: a crash-free run with one successful download writes
`c10Manifest` and stores it at `manifest.json`; the run whose second transfer
raises writes no manifest. -/
theorem c7_manifest_witness :
    (((main c6Args c10World emptyFS).manifestWritten.isSome ↔
        (main c6Args c10World emptyFS).downloaded ≠ []) ∧
      (c10Manifest.files
        = (main c6Args c10World emptyFS).downloaded.map (fun n => ⟨n, n, c6Args.url⟩) ∧
       c10Manifest.file_count = c10Manifest.files.length ∧
       c10Manifest.source_page = c6Args.url ∧
       (main c6Args c10World emptyFS).fs.read manifestName
         = some (.manifestFile c10Manifest))) ∧
    (main c6Args c7World emptyFS).manifestWritten = none := by
  constructor
  · have h := (c7_manifest c6Args c10World emptyFS
      (by
        intro html links hp hx u hu
        cases hp
        rw [show extract_links c6Html c6Args.url = .ok [c6Html] from by decide] at hx
        cases hx
        rw [List.mem_singleton] at hu
        rw [hu]
        exact ⟨"p.mp3".data, by decide⟩)).1
      (by
        intro html links hp hx u hu
        cases hp
        rw [show extract_links c6Html c6Args.url = .ok [c6Html] from by decide] at hx
        cases hx
        rw [List.mem_singleton] at hu
        rw [hu]
        decide)
    exact ⟨h.1, h.2 c10Manifest (by decide)⟩
  · exact (c7_manifest c6Args c7World emptyFS
      (by
        intro html links hp hx u hu
        cases hp
        rw [show extract_links c7Html c6Args.url
            = .ok ["http://h/p.mp3".data, "http://h/q.mp3".data] from by decide] at hx
        cases hx
        rcases List.mem_cons.mp hu with rfl | hu2
        · exact ⟨"p.mp3".data, by decide⟩
        · rw [List.mem_singleton] at hu2
          rw [hu2]
          exact ⟨"q.mp3".data, by decide⟩)).2 c7Html
      ["http://h/p.mp3".data, "http://h/q.mp3".data] rfl (by decide) rfl
      ⟨"http://h/q.mp3".data, by decide, by decide⟩

/-- C8: with `--dry-run` the filesystem is untouched: the output directory
state is returned unchanged (never created) and no manifest is written, on
every path of the driver. -/
theorem c8_dry_run_no_side_effects (args : Args) (w : World) (fs0 : FS)
    (hdry : args.dryRun = true) :
    (main args w fs0).fs = fs0 ∧ (main args w fs0).manifestWritten = none := by
  cases hp : w.page with
  | none =>
    rw [main_fetch_fail args w fs0 hp]
    exact ⟨rfl, rfl⟩
  | some html =>
    cases hx : extract_links html args.url with
    | error e =>
      rw [main_extract_error args w fs0 html e hp hx]
      exact ⟨rfl, rfl⟩
    | ok links =>
      rw [main_ok_links args w fs0 html links hp hx]
      by_cases hnil : links = []
      · rw [if_pos hnil]
        exact ⟨rfl, rfl⟩
      · rw [if_neg hnil, if_pos hdry]
        exact ⟨rfl, rfl⟩

/-- Witness for C8: a dry run over a page with one link leaves the (absent)
directory absent and writes nothing. -/
theorem c8_dry_run_no_side_effects_witness :
    (main ⟨"http://e.com/".data, true, false⟩ c10World emptyFS).fs = emptyFS ∧
    (main ⟨"http://e.com/".data, true, false⟩ c10World emptyFS).manifestWritten = none :=
  c8_dry_run_no_side_effects ⟨"http://e.com/".data, true, false⟩ c10World emptyFS rfl

/-- C9 (counterexample): in a non-dry-run invocation whose fetch succeeds but
discovers zero links, the driver returns before `ensure_directory`, so the
destination directory is never created. -/
theorem c9_no_directory_on_zero_links :
    (main c6Args c9World emptyFS).fs.dirExists = false ∧
    c9World.page ≠ none ∧ c6Args.dryRun = false := by
  refine ⟨by decide, ?_, rfl⟩
  intro h
  exact Option.noConfusion (show some _ = (none : Option PyStr) from h)

/-- C9 (amended): in every non-dry-run invocation whose fetch and extraction
succeed and which discovers at least one link, the destination directory is
created immediately after link extraction and before any download begins (the
download stage runs on the directory-ready state), and it still exists at the
end of the run; with zero links the driver instead returns before creating
the directory. -/
theorem c9_directory_ready (args : Args) (w : World) (fs0 : FS) (html : PyStr)
    (links : List PyStr) (hp : w.page = some html)
    (hx : extract_links html args.url = .ok links) (hne : links ≠ [])
    (hdry : args.dryRun = false) :
    main args w fs0 = downloadStage args w ⟨true, fs0.files⟩ links ∧
    (main args w fs0).fs.dirExists = true := by
  have hmain : main args w fs0 = downloadStage args w ⟨true, fs0.files⟩ links := by
    rw [main_ok_links args w fs0 html links hp hx, if_neg hne,
      if_neg (by rw [hdry]; exact Bool.false_ne_true)]
  refine ⟨hmain, ?_⟩
  rw [hmain]
  unfold downloadStage
  have hdir := runDownloads_dirExists w args.overwrite links ⟨true, fs0.files⟩
  by_cases h1 : (runDownloads w args.overwrite ⟨true, fs0.files⟩ links).1 = true
  · rw [if_pos h1]
    exact hdir
  · rw [if_neg h1]
    by_cases hds : (runDownloads w args.overwrite ⟨true, fs0.files⟩ links).2.2.1 = []
    · rw [if_pos hds]
      exact hdir
    · rw [if_neg hds]
      exact hdir

/-- Witness for C9: the amended theorem at a concrete one-link run. -/
theorem c9_directory_ready_witness :
    main c6Args c10World emptyFS = downloadStage c6Args c10World ⟨true, emptyFS.files⟩ [c6Html] ∧
    (main c6Args c10World emptyFS).fs.dirExists = true :=
  c9_directory_ready c6Args c10World emptyFS c6Html [c6Html] rfl (by decide)
    (by intro h; cases h) rfl

/-- C10: every manifest the program writes records the invocation's source
page URL in the `source_url` field of each per-file entry (and in
`source_page`); the URL an individual file was downloaded from appears in no
field of the manifest, whose entries consist only of `filename`,
`relative_path` and `source_url`. -/
theorem c10_manifest_source_url (args : Args) (w : World) (fs0 : FS) :
    ∀ m, (main args w fs0).manifestWritten = some m →
      m.source_page = args.url ∧ ∀ e ∈ m.files, e.source_url = args.url := by
  cases hp : w.page with
  | none =>
    rw [main_fetch_fail args w fs0 hp]
    exact fun m hm => Option.noConfusion hm
  | some html =>
    cases hx : extract_links html args.url with
    | error e =>
      rw [main_extract_error args w fs0 html e hp hx]
      exact fun m hm => Option.noConfusion hm
    | ok links =>
      rw [main_ok_links args w fs0 html links hp hx]
      by_cases hnil : links = []
      · rw [if_pos hnil]; exact fun m hm => Option.noConfusion hm
      · rw [if_neg hnil]
        by_cases hdry : args.dryRun = true
        · rw [if_pos hdry]; exact fun m hm => Option.noConfusion hm
        · rw [if_neg hdry]
          simp only [downloadStage]
          by_cases h1 : (runDownloads w args.overwrite ⟨true, fs0.files⟩ links).1 = true
          · rw [if_pos h1]; exact fun m hm => Option.noConfusion hm
          · rw [if_neg h1]
            by_cases hds : (runDownloads w args.overwrite ⟨true, fs0.files⟩ links).2.2.1 = []
            · rw [if_pos hds]; exact fun m hm => Option.noConfusion hm
            · rw [if_neg hds]
              intro m hm
              have hm2 : some (write_manifest args.url
                  (runDownloads w args.overwrite ⟨true, fs0.files⟩ links).2.2.1) = some m := hm
              injection hm2 with hmeq
              subst hmeq
              refine ⟨rfl, ?_⟩
              intro e he
              unfold write_manifest at he
              simp only [List.mem_map] at he
              obtain ⟨n, -, rfl⟩ := he
              rfl

/-- Witness for C10: the manifest written by a concrete successful run
carries the page URL in every entry. -/
theorem c10_manifest_source_url_witness :
    c10Manifest.source_page = c6Args.url ∧
    ∀ e ∈ c10Manifest.files, e.source_url = c6Args.url :=
  c10_manifest_source_url c6Args c10World emptyFS c10Manifest (by decide)

theorem take_add' {α : Type} : ∀ (l : List α) (m n : Nat),
    l.take (m + n) = l.take m ++ (l.drop m).take n := by
  intro l
  induction l with
  | nil => intro m n; simp
  | cons a t ih =>
    intro m n
    cases m with
    | zero => simp
    | succ m' =>
      simp only [Nat.succ_add, List.take_succ_cons, List.drop_succ_cons, List.cons_append]
      rw [ih m' n]

theorem ciPre_length_le : ∀ (P s : PyStr), ciPre P s = true → P.length ≤ s.length := by
  intro P
  induction P with
  | nil => intro s _; simp
  | cons p ps ih =>
    intro s h
    cases s with
    | nil => cases h
    | cons c cs =>
      simp only [ciPre, Bool.and_eq_true] at h
      have := ih cs h.2
      simp only [List.length_cons]
      omega

theorem ciPre_take : ∀ (P s : PyStr), ciPre P s = true → ciPre P (s.take P.length) = true := by
  intro P
  induction P with
  | nil => intro s _; rfl
  | cons p ps ih =>
    intro s h
    cases s with
    | nil => cases h
    | cons c cs =>
      simp only [ciPre, Bool.and_eq_true] at h
      simp only [List.length_cons, List.take_succ_cons, ciPre, Bool.and_eq_true]
      exact ⟨h.1, ih cs h.2⟩

theorem ciPre_mem_lower : ∀ (P s : PyStr), ciPre P s = true → s.length = P.length →
    ∀ c ∈ s, lowerC c ∈ P := by
  intro P
  induction P with
  | nil =>
    intro s _ hlen c hc
    cases s with
    | nil => cases hc
    | cons a t => cases hlen
  | cons p ps ih =>
    intro s h hlen c hc
    cases s with
    | nil => cases hc
    | cons a t =>
      simp only [ciPre, Bool.and_eq_true] at h
      rcases List.mem_cons.mp hc with rfl | hct
      · have : p = lowerC c := beq_iff_eq.mp h.1
        rw [← this]
        exact List.mem_cons_self p ps
      · exact List.mem_cons_of_mem p (ih t h.2 (by simpa using hlen) c hct)

theorem extNames_sub_alphabet : ∀ e ∈ extNames, ∀ x ∈ ('.' :: e), x ∈ extAlphabet := by decide

theorem sepOK_of_lower_mem (c : Char) (h : lowerC c ∈ extAlphabet) : SepOK c := by
  unfold lowerC at h
  by_cases hr : 'A' ≤ c ∧ c ≤ 'Z'
  · have h65 : 65 ≤ c.toNat := hr.1
    refine ⟨?_, ?_, ?_, ?_, ?_, ?_, ?_, ?_, by omega⟩ <;>
      (intro heq; rw [heq] at h65; revert h65; decide)
  · rw [if_neg hr] at h
    simp only [extAlphabet, List.mem_cons, List.not_mem_nil, or_false] at h
    rcases h with rfl | rfl | rfl | rfl | rfl | rfl | rfl | rfl | rfl | rfl | rfl | rfl | rfl <;>
      (unfold SepOK; decide)

theorem chunk_sepOK (E : PyStr) (hE : isExtChunk E) : ∀ c ∈ E, SepOK c := by
  obtain ⟨e, he, hpre, hlen⟩ := hE
  intro c hc
  have hmem := ciPre_mem_lower ('.' :: e) E hpre (by simpa using hlen) c hc
  exact sepOK_of_lower_mem c (extNames_sub_alphabet e he _ hmem)

theorem chunk_ne_nil (E : PyStr) (hE : isExtChunk E) : E ≠ [] := by
  obtain ⟨e, he, hpre, hlen⟩ := hE
  intro h
  rw [h] at hlen
  cases hlen

theorem chunk_length (E : PyStr) (hE : isExtChunk E) : 4 ≤ E.length := by
  obtain ⟨e, he, hpre, hlen⟩ := hE
  have : 3 ≤ e.length := by fin_cases he <;> decide
  omega

theorem endsAudio_append (X E : PyStr) (hE : isExtChunk E) :
    endsAudio (X ++ E) = true := by
  obtain ⟨e, he, hpre, hlen⟩ := hE
  unfold endsAudio
  rw [List.any_eq_true]
  refine ⟨e, he, ?_⟩
  have hdrop : (X ++ E).drop ((X ++ E).length - (e.length + 1)) = E := by
    rw [List.length_append, hlen]
    have : X.length + (e.length + 1) - (e.length + 1) = X.length := by omega
    rw [this, List.drop_left]
  rw [hdrop, Bool.and_eq_true]
  refine ⟨by simp [List.length_append]; omega, hpre⟩

theorem breakAt_spec (p : Char → Bool) : ∀ l : PyStr,
    (breakAt p l).1 ++ (breakAt p l).2 = l ∧
    (∀ c ∈ (breakAt p l).1, p c = false) ∧
    (∀ c t, (breakAt p l).2 = c :: t → p c = true) := by
  intro l
  induction l with
  | nil =>
    refine ⟨rfl, ?_, ?_⟩
    · intro c hc
      cases hc
    · intro c t h
      cases h
  | cons a rest ih =>
    by_cases ha : p a = true
    · refine ⟨?_, ?_, ?_⟩ <;> simp only [breakAt, if_pos ha]
      · rfl
      · intro c hc; cases hc
      · intro c t h
        cases h
        exact ha
    · have ha2 : p a = false := by
        cases hv : p a
        · rfl
        · exact absurd hv ha
      refine ⟨?_, ?_, ?_⟩ <;> simp only [breakAt, if_neg ha]
      · simpa using ih.1
      · intro c hc
        rcases List.mem_cons.mp hc with rfl | hc2
        · exact ha2
        · exact ih.2.1 c hc2
      · exact ih.2.2

theorem breakAt_append_not (p : Char → Bool) : ∀ (l1 l2 : PyStr),
    (∀ c ∈ l1, p c = false) →
    breakAt p (l1 ++ l2) = (l1 ++ (breakAt p l2).1, (breakAt p l2).2) := by
  intro l1
  induction l1 with
  | nil => intro l2 _; simp
  | cons a t ih =>
    intro l2 h
    have ha : p a = false := h a (List.mem_cons_self a t)
    simp only [List.cons_append, breakAt, ha, Bool.false_eq_true, if_false, List.append_eq]
    rw [ih l2 (fun c hc => h c (List.mem_cons_of_mem a hc))]

theorem breakAt_shape (p : Char → Bool) (E Q : PyStr)
    (hE : ∀ c ∈ E, p c = false) (hQ : Q = [] ∨ Q.head? = some '?') :
    ∀ A : PyStr,
    (∃ A1 c A2, A = A1 ++ c :: A2 ∧ p c = true ∧ (∀ x ∈ A1, p x = false) ∧
      breakAt p (A ++ E ++ Q) = (A1, c :: (A2 ++ E ++ Q))) ∨
    (∃ R, Q = '?' :: R ∧ p '?' = true ∧
      breakAt p (A ++ E ++ Q) = (A ++ E, Q)) ∨
    (∃ R1 c R2, Q = '?' :: (R1 ++ c :: R2) ∧ p '?' = false ∧ p c = true ∧
      (∀ x ∈ R1, p x = false) ∧
      breakAt p (A ++ E ++ Q) = (A ++ E ++ '?' :: R1, c :: R2)) ∨
    ((∀ x ∈ A ++ E ++ Q, p x = false) ∧ breakAt p (A ++ E ++ Q) = (A ++ E ++ Q, [])) := by
  intro A
  induction A with
  | nil =>
    simp only [List.nil_append]
    rcases hQ with rfl | hq
    · right; right; right
      have h1 := breakAt_append_not p E [] hE
      simp only [List.append_nil] at h1 ⊢
      refine ⟨?_, ?_⟩
      · intro x hx
        exact hE x hx
      · rw [h1]
        simp [breakAt]
    · obtain ⟨R, rfl⟩ : ∃ R, Q = '?' :: R := by
        cases Q with
        | nil => cases hq
        | cons a t => exact ⟨t, by injection hq with h2; rw [h2]⟩
      by_cases hqm : p '?' = true
      · right; left
        refine ⟨R, rfl, hqm, ?_⟩
        rw [breakAt_append_not p E ('?' :: R) hE]
        simp [breakAt, hqm]
      · have hqm2 : p '?' = false := by
          cases hv : p '?'
          · rfl
          · exact absurd hv hqm
        obtain ⟨hsp, hall, hhead⟩ := breakAt_spec p R
        cases hr : (breakAt p R).2 with
        | nil =>
          right; right; right
          rw [hr, List.append_nil] at hsp
          refine ⟨?_, ?_⟩
          · intro x hx
            rcases List.mem_append.mp hx with hx1 | hx2
            · exact hE x hx1
            · rcases List.mem_cons.mp hx2 with rfl | hx3
              · exact hqm2
              · rw [← hsp] at hx3
                exact hall x hx3
          · rw [breakAt_append_not p E ('?' :: R) hE]
            simp only [breakAt, hqm2, Bool.false_eq_true, if_false]
            rw [hr, hsp]
        | cons c t =>
          right; right; left
          refine ⟨(breakAt p R).1, c, t, ?_, hqm2, hhead c t hr, hall, ?_⟩
          · rw [← hr, hsp]
          · rw [breakAt_append_not p E ('?' :: R) hE]
            simp only [breakAt, hqm2, Bool.false_eq_true, if_false]
            rw [hr]
  | cons a A' ih =>
    by_cases ha : p a = true
    · left
      refine ⟨[], a, A', rfl, ha, ?_, ?_⟩
      · intro x hx
        cases hx
      · simp [breakAt, ha]
    · have ha2 : p a = false := by
        cases hv : p a
        · rfl
        · exact absurd hv ha
      have hstep : breakAt p ((a :: A') ++ E ++ Q)
          = (a :: (breakAt p (A' ++ E ++ Q)).1, (breakAt p (A' ++ E ++ Q)).2) := by
        simp [breakAt, ha2]
      rcases ih with ⟨A1, c, A2, hA, hc, hall, heq⟩ | ⟨R, hQR, hqm, heq⟩ |
          ⟨R1, c, R2, hQR, hqm, hc, hall, heq⟩ | ⟨hall, heq⟩
      · left
        refine ⟨a :: A1, c, A2, by simp [hA], hc, ?_, ?_⟩
        · intro x hx
          rcases List.mem_cons.mp hx with rfl | hx2
          · exact ha2
          · exact hall x hx2
        · rw [hstep, heq]
      · right; left
        refine ⟨R, hQR, hqm, ?_⟩
        rw [hstep, heq]
        rfl
      · right; right; left
        refine ⟨R1, c, R2, hQR, hqm, hc, hall, ?_⟩
        rw [hstep, heq]
        rfl
      · right; right; right
        refine ⟨?_, ?_⟩
        · intro x hx
          rcases List.mem_cons.mp hx with rfl | hx2
          · exact ha2
          · exact hall x hx2
        · rw [hstep, heq]
          rfl

theorem endsE_prepend (P u : PyStr) (h : EndsE u) : EndsE (P ++ u) := by
  obtain ⟨X, E, hE, rfl⟩ := h
  exact ⟨P ++ X, E, hE, by rw [List.append_assoc]⟩

theorem endsE_ne_nil (u : PyStr) (h : EndsE u) : u ≠ [] := by
  obtain ⟨X, E, hE, rfl⟩ := h
  have h4 := chunk_length E hE
  intro hc
  have := congrArg List.length hc
  simp only [List.length_append, List.length_nil] at this
  omega

theorem shape_ne_nil (u : PyStr) (h : Shape u) : u ≠ [] := by
  obtain ⟨A, E, Q, rfl, hE, hQ⟩ := h
  have h4 := chunk_length E hE
  intro hc
  have := congrArg List.length hc
  simp only [List.length_append, List.length_nil] at this
  omega

theorem shape_chunkTail (u : PyStr) (h : Shape u) : ChunkTail u := by
  obtain ⟨A, E, Q, rfl, hE, hQ⟩ := h
  refine ⟨A, E, Q, rfl, hE, ?_⟩
  rcases hQ with h | h
  · exact Or.inl h
  · exact Or.inr (Or.inl h)

theorem chunkTail_audioTail (u : PyStr) (h : ChunkTail u) : AudioTail u := by
  obtain ⟨p, E, q, rfl, hE, hq⟩ := h
  exact ⟨p ++ E, q, rfl, endsAudio_append p E hE, hq⟩

theorem chunk_pred_false (E : PyStr) (hE : isExtChunk E) (p : Char → Bool)
    (hp : ∀ c, SepOK c → p c = false) : ∀ c ∈ E, p c = false :=
  fun c hc => hp c (chunk_sepOK E hE c hc)

theorem urlunsplit_decompose (s n p q f : PyStr) :
    urlunsplit s n p q f = qfSteps (unsplitBase s n p) q f := rfl

theorem urlunparse_decompose (x : Parse6) :
    urlunparse x =
      qfSteps (unsplitBase x.scheme x.netloc
        (if x.params ≠ [] then x.path ++ ';' :: x.params else x.path)) x.query x.frag := rfl

theorem chunkTail_of_endsE_tail (u q : PyStr) (hu : EndsE u)
    (hq : q = [] ∨ q.head? = some '?' ∨ q.head? = some '#') : ChunkTail (u ++ q) := by
  obtain ⟨X, E, hE, rfl⟩ := hu
  exact ⟨X, E, q, by rw [List.append_assoc], hE, hq⟩

theorem tail_of_endsE (u q f : PyStr) (h : EndsE u) : ChunkTail (qfSteps u q f) := by
  unfold qfSteps
  by_cases hf : f = []
  · rw [if_neg (by simp [hf])]
    by_cases hq : q = []
    · rw [if_neg (by simp [hq])]
      have := chunkTail_of_endsE_tail u [] h (Or.inl rfl)
      rwa [List.append_nil] at this
    · rw [if_pos (by simp [hq])]
      exact chunkTail_of_endsE_tail u ('?' :: q) h (Or.inr (Or.inl rfl))
  · rw [if_pos (by simp [hf])]
    by_cases hq : q = []
    · rw [if_neg (by simp [hq])]
      exact chunkTail_of_endsE_tail u ('#' :: f) h (Or.inr (Or.inr rfl))
    · rw [if_pos (by simp [hq])]
      have := chunkTail_of_endsE_tail u ('?' :: q ++ '#' :: f) h (Or.inr (Or.inl rfl))
      rwa [← List.append_assoc] at this

theorem tail_of_query (u q f : PyStr) (h : Shape q) : ChunkTail (qfSteps u q f) := by
  obtain ⟨A, E, T, hq, hE, hT⟩ := h
  have hqne : q ≠ [] := shape_ne_nil q ⟨A, E, T, hq, hE, hT⟩
  unfold qfSteps
  by_cases hf : f = []
  · rw [if_neg (by simp [hf]), if_pos (by simp [hqne])]
    refine ⟨u ++ '?' :: A, E, T, ?_, hE, ?_⟩
    · rw [hq]
      simp [List.append_assoc]
    · rcases hT with h | h
      · exact Or.inl h
      · exact Or.inr (Or.inl h)
  · rw [if_pos (by simp [hf]), if_pos (by simp [hqne])]
    refine ⟨u ++ '?' :: A, E, T ++ '#' :: f, ?_, hE, ?_⟩
    · rw [hq]
      simp [List.append_assoc]
    · rcases hT with rfl | h
      · exact Or.inr (Or.inr rfl)
      · cases T with
        | nil => cases h
        | cons t ts =>
          injection h with h
          subst h
          exact Or.inr (Or.inl rfl)

theorem tail_of_frag (u q f : PyStr) (h : Shape f) : ChunkTail (qfSteps u q f) := by
  obtain ⟨A, E, T, hf, hE, hT⟩ := h
  have hfne : f ≠ [] := shape_ne_nil f ⟨A, E, T, hf, hE, hT⟩
  unfold qfSteps
  rw [if_pos (by simp [hfne])]
  refine ⟨(if q ≠ [] then u ++ '?' :: q else u) ++ '#' :: A, E, T, ?_, hE, ?_⟩
  · rw [hf]
    simp [List.append_assoc]
  · rcases hT with h | h
    · exact Or.inl h
    · exact Or.inr (Or.inl h)

theorem endsE_schemeStep (s url : PyStr) (h : EndsE url) :
    EndsE (if s ≠ [] then s ++ ':' :: url else url) := by
  split
  · simpa using endsE_prepend (s ++ [':']) url h
  · exact h

theorem unsplitBase_of_netloc (s n p : PyStr) (hn : EndsE n) (hp : p = []) :
    EndsE (unsplitBase s n p) := by
  subst hp
  unfold unsplitBase
  refine endsE_schemeStep s _ ?_
  split
  · simpa using endsE_prepend ['/', '/'] n hn
  · rename_i hfalse
    exact absurd (Or.inl (endsE_ne_nil n hn)) hfalse

theorem unsplitBase_of_path (s n p : PyStr) (hp : EndsE p) :
    EndsE (unsplitBase s n p) := by
  unfold unsplitBase
  refine endsE_schemeStep s _ ?_
  split
  · have h1 : EndsE (if p ≠ [] ∧ p.head? ≠ some '/' then '/' :: p else p) := by
      split
      · exact endsE_prepend ['/'] p hp
      · exact hp
    simpa [List.append_assoc] using endsE_prepend (['/', '/'] ++ n) _ h1
  · exact hp

theorem unparse_good (x : Parse6) (h : Parse6Good x) : ChunkTail (urlunparse x) := by
  rw [urlunparse_decompose]
  rcases h with ⟨hn, hp, hpa⟩ | ⟨hp, hpa⟩ | hpa | hq | hf
  · refine tail_of_endsE _ _ _ ?_
    rw [if_neg (by simp [hpa])]
    exact unsplitBase_of_netloc _ _ _ hn hp
  · refine tail_of_endsE _ _ _ ?_
    rw [if_neg (by simp [hpa])]
    exact unsplitBase_of_path _ _ _ hp
  · refine tail_of_endsE _ _ _ ?_
    rw [if_pos (by simp [endsE_ne_nil _ hpa])]
    refine unsplitBase_of_path _ _ _ ?_
    obtain ⟨W, E, hE, hw⟩ := hpa
    exact ⟨x.path ++ ';' :: W, E, hE, by rw [hw]; simp [List.append_assoc]⟩
  · exact tail_of_query _ _ _ hq
  · exact tail_of_frag _ _ _ hf

theorem dropWhile_append_keep (p : Char → Bool) (l1 l2 : PyStr)
    (h : l2.dropWhile p = l2) :
    (l1 ++ l2).dropWhile p = l1.dropWhile p ++ l2 := by
  induction l1 with
  | nil => simpa using h
  | cons a t ih =>
    cases ha : p a
    · simp only [List.cons_append, List.dropWhile_cons, ha, Bool.false_eq_true, if_false]
    · simp only [List.cons_append, List.dropWhile_cons, ha, if_true]
      exact ih

theorem dropWhile_eq_self_of_head (p : Char → Bool) (l : PyStr)
    (h : ∀ c, l.head? = some c → p c = false) : l.dropWhile p = l := by
  cases l with
  | nil => rfl
  | cons a t =>
    have := h a rfl
    simp [List.dropWhile_cons, this]

theorem chunk_head_c0_false (E Q : PyStr) (hE : isExtChunk E) :
    ∀ c, (E ++ Q).head? = some c → isC0OrSpace c = false := by
  intro c hc
  cases E with
  | nil => exact absurd rfl (chunk_ne_nil [] hE)
  | cons e es =>
    simp only [List.cons_append, List.head?_cons, Option.some.injEq] at hc
    subst hc
    have hs := chunk_sepOK _ hE e (List.mem_cons_self e es)
    obtain ⟨-, -, -, -, -, -, -, -, h32⟩ := hs
    simp only [isC0OrSpace, decide_eq_false_iff_not]
    omega

theorem shape_dropWhile (u : PyStr) (h : Shape u) : Shape (u.dropWhile isC0OrSpace) := by
  obtain ⟨A, E, Q, rfl, hE, hQ⟩ := h
  rw [List.append_assoc]
  rw [dropWhile_append_keep isC0OrSpace A (E ++ Q)
    (dropWhile_eq_self_of_head _ _ (chunk_head_c0_false E Q hE))]
  exact ⟨A.dropWhile isC0OrSpace, E, Q, by rw [List.append_assoc], hE, hQ⟩

theorem chunk_filter_safe (E : PyStr) (hE : isExtChunk E) :
    E.filter (fun c => !(c == '\t' || c == '\r' || c == '\n')) = E := by
  rw [List.filter_eq_self]
  intro c hc
  have hs := chunk_sepOK E hE c hc
  obtain ⟨-, -, -, -, -, h1, h2, h3, -⟩ := hs
  simp [h1, h2, h3]

theorem shape_removeUnsafe (u : PyStr) (h : Shape u) : Shape (removeUnsafe u) := by
  obtain ⟨A, E, Q, rfl, hE, hQ⟩ := h
  unfold removeUnsafe
  rw [List.filter_append, List.filter_append, chunk_filter_safe E hE]
  rcases hQ with rfl | hq
  · exact ⟨List.filter _ A, E, List.filter _ [], rfl, hE, Or.inl rfl⟩
  · cases Q with
    | nil => cases hq
    | cons q R =>
      injection hq with hq
      subst hq
      refine ⟨List.filter _ A, E, List.filter _ ('?' :: R), rfl, hE, Or.inr ?_⟩
      rw [List.filter_cons_of_pos (by decide)]
      rfl

theorem chunk_colon_false (E : PyStr) (hE : isExtChunk E) :
    ∀ c ∈ E, (fun c => c == ':') c = false := by
  refine chunk_pred_false E hE _ ?_
  intro c hs
  obtain ⟨-, -, -, -, h5, -, -, -, -⟩ := hs
  simp [h5]

theorem shape_splitScheme (dflt u : PyStr) (h : Shape u) : Shape (splitScheme dflt u).2 := by
  obtain ⟨A, E, Q, rfl, hE, hQ⟩ := h
  have hshape : Shape (A ++ E ++ Q) := ⟨A, E, Q, rfl, hE, hQ⟩
  rcases breakAt_shape (fun c => c == ':') E Q (chunk_colon_false E hE) hQ A with
    ⟨A1, c, A2, hA, hc, hall, heq⟩ | ⟨R, hQR, hqm, heq⟩ |
    ⟨R1, c, R2, hQR, hqm, hc, hall, heq⟩ | ⟨hall, heq⟩
  · cases A1 with
    | nil =>
      simp only [splitScheme, heq]
      exact hshape
    | cons a as =>
      cases hcond : isAsciiAlpha a && (a :: as).all isSchemeChar
      · simp only [splitScheme, heq, hcond, Bool.false_eq_true, if_false]
        exact hshape
      · simp only [splitScheme, heq, hcond, if_true]
        exact ⟨A2, E, Q, rfl, hE, hQ⟩
  · exact absurd hqm (by decide)
  · have hmem : '?' ∈ A ++ E ++ '?' :: R1 :=
      List.mem_append_right (A ++ E) (List.mem_cons_self '?' R1)
    cases hX : A ++ E ++ '?' :: R1 with
    | nil => rw [hX] at hmem; cases hmem
    | cons x xs =>
      have hmem2 : '?' ∈ x :: xs := hX ▸ hmem
      have hna : (isAsciiAlpha x && (x :: xs).all isSchemeChar) = false := by
        cases hval : isAsciiAlpha x && (x :: xs).all isSchemeChar
        · rfl
        · have h2 := (Bool.and_eq_true _ _).mp hval
          have h3 := List.all_eq_true.mp h2.2 '?' hmem2
          exact absurd h3 (by decide)
      simp only [splitScheme, heq, hX, hna, Bool.false_eq_true, if_false]
      exact hshape
  · simp only [splitScheme, heq]
    exact hshape

theorem chunk_hash_false (E : PyStr) (hE : isExtChunk E) :
    ∀ c ∈ E, (fun c => c == '#') c = false := by
  refine chunk_pred_false E hE _ ?_
  intro c hs
  obtain ⟨h1, -, -, -, -, -, -, -, -⟩ := hs
  simp [h1]

theorem chunk_ques_false (E : PyStr) (hE : isExtChunk E) :
    ∀ c ∈ E, (fun c => c == '?') c = false := by
  refine chunk_pred_false E hE _ ?_
  intro c hs
  obtain ⟨-, h2, -, -, -, -, -, -, -⟩ := hs
  simp [h2]

theorem chunk_netsep_false (E : PyStr) (hE : isExtChunk E) :
    ∀ c ∈ E, (fun c => c == '/' || c == '?' || c == '#') c = false := by
  refine chunk_pred_false E hE _ ?_
  intro c hs
  obtain ⟨h1, h2, h3, -, -, -, -, -, -⟩ := hs
  simp [h1, h2, h3]

theorem chunk_semi_false (E : PyStr) (hE : isExtChunk E) :
    ∀ c ∈ E, (fun c => c == ';') c = false := by
  refine chunk_pred_false E hE _ ?_
  intro c hs
  obtain ⟨-, -, -, h4, -, -, -, -, -⟩ := hs
  simp [h4]

theorem chunk_slash_false (E : PyStr) (hE : isExtChunk E) :
    ∀ c ∈ E, (fun c => c == '/') c = false := by
  refine chunk_pred_false E hE _ ?_
  intro c hs
  obtain ⟨-, -, h3, -, -, -, -, -, -⟩ := hs
  simp [h3]

theorem finishSplit_good (sch n rest : PyStr) (h : Shape rest) :
    EndsE (finishSplit sch n rest).path ∨ Shape (finishSplit sch n rest).query ∨
    Shape (finishSplit sch n rest).frag := by
  obtain ⟨A, E, Q, rfl, hE, hQ⟩ := h
  rcases breakAt_shape (fun c => c == '#') E Q (chunk_hash_false E hE) hQ A with
    ⟨A1, c, A2, hA, hc, hall, heqH⟩ | ⟨R, hQR, hqm, heqH⟩ |
    ⟨R1, c, R2, hQR, hqm, hc, hall, heqH⟩ | ⟨hall, heqH⟩
  · right; right
    simp only [finishSplit, heqH]
    exact ⟨A2, E, Q, rfl, hE, hQ⟩
  · exact absurd hqm (by decide)
  · rcases breakAt_shape (fun c => c == '?') E ('?' :: R1) (chunk_ques_false E hE)
        (Or.inr rfl) A with
      ⟨A1q, cq, A2q, hAq, hcq, hallq, heqQ⟩ | ⟨Rq, hQRq, hqmq, heqQ⟩ |
      ⟨R1q, cq, R2q, hQRq, hqmq, hcq, hallq, heqQ⟩ | ⟨hallq, heqQ⟩
    · right; left
      simp only [finishSplit, heqH, heqQ]
      exact ⟨A2q, E, '?' :: R1, rfl, hE, Or.inr rfl⟩
    · left
      simp only [finishSplit, heqH, heqQ]
      exact ⟨A, E, hE, rfl⟩
    · exact absurd hqmq (by decide)
    · exact absurd (hallq '?' (List.mem_append_right (A ++ E) (List.mem_cons_self '?' R1)))
        (by decide)
  · rcases breakAt_shape (fun c => c == '?') E Q (chunk_ques_false E hE) hQ A with
      ⟨A1q, cq, A2q, hAq, hcq, hallq, heqQ⟩ | ⟨Rq, hQRq, hqmq, heqQ⟩ |
      ⟨R1q, cq, R2q, hQRq, hqmq, hcq, hallq, heqQ⟩ | ⟨hallq, heqQ⟩
    · right; left
      simp only [finishSplit, heqH, heqQ]
      exact ⟨A2q, E, Q, rfl, hE, hQ⟩
    · left
      simp only [finishSplit, heqH, heqQ]
      exact ⟨A, E, hE, rfl⟩
    · exact absurd hqmq (by decide)
    · rcases hQ with rfl | hq
      · left
        simp only [finishSplit, heqH, heqQ]
        exact ⟨A, E, hE, by rw [List.append_nil]⟩
      · cases Q with
        | nil => cases hq
        | cons q R =>
          injection hq with hq
          subst hq
          exact absurd (hallq '?' (List.mem_append_right (A ++ E) (List.mem_cons_self '?' R)))
            (by decide)

theorem finishSplit_netloc (sch n rest : PyStr) : (finishSplit sch n rest).netloc = n := rfl

theorem finishSplit_path_qhead (sch n R : PyStr) :
    (finishSplit sch n ('?' :: R)).path = [] := rfl

theorem finishSplit_path_nil (sch n : PyStr) : (finishSplit sch n []).path = [] := rfl

theorem take2_slashes (A E Q : PyStr) (hE : isExtChunk E)
    (h : (A ++ E ++ Q).take 2 = ['/', '/']) : ∃ A', A = '/' :: '/' :: A' := by
  cases A with
  | nil =>
    cases hEe : E with
    | nil => exact absurd hEe (chunk_ne_nil E hE)
    | cons e es =>
      subst hEe
      simp only [List.nil_append, List.cons_append, List.take_succ_cons] at h
      injection h with h1 h2
      have := chunk_sepOK _ hE e (List.mem_cons_self e es)
      obtain ⟨-, -, h3, -, -, -, -, -, -⟩ := this
      exact absurd h1 h3
  | cons a A1 =>
    cases A1 with
    | nil =>
      cases hEe : E with
      | nil => exact absurd hEe (chunk_ne_nil E hE)
      | cons e es =>
        subst hEe
        simp only [List.cons_append, List.nil_append, List.take_succ_cons] at h
        injection h with h1 h2
        injection h2 with h2 h3
        have := chunk_sepOK _ hE e (List.mem_cons_self e es)
        obtain ⟨-, -, h4, -, -, -, -, -, -⟩ := this
        exact absurd h2 h4
    | cons b A2 =>
      simp only [List.cons_append, List.take_succ_cons, List.take_zero] at h
      injection h with h1 h2
      injection h2 with h2 h3
      exact ⟨A2, by rw [h1, h2]⟩

theorem urlsplit_good (url dflt : PyStr) (s : Split5) (h : Shape url)
    (hs : urlsplit url dflt = .ok s) : Split5Good s := by
  simp only [urlsplit] at hs
  have h2 : Shape (splitScheme dflt (removeUnsafe (url.dropWhile isC0OrSpace))).2 :=
    shape_splitScheme _ _ (shape_removeUnsafe _ (shape_dropWhile _ h))
  obtain ⟨A, E, Q, hu2, hE, hQ⟩ := h2
  rw [hu2] at hs
  by_cases htk : (A ++ E ++ Q).take 2 = ['/', '/']
  · obtain ⟨A', rfl⟩ := take2_slashes A E Q hE htk
    rw [if_pos htk] at hs
    rw [show (('/' :: '/' :: A') ++ E ++ Q).drop 2 = A' ++ E ++ Q from rfl] at hs
    rcases breakAt_shape (fun c => c == '/' || c == '?' || c == '#') E Q
        (chunk_netsep_false E hE) hQ A' with
      ⟨A1, c, A2, hA, hc, hall, heqN⟩ | ⟨R, hQR, hqm, heqN⟩ |
      ⟨R1, c, R2, hQR, hqm, hc, hall, heqN⟩ | ⟨hall, heqN⟩
    · simp only [heqN] at hs
      split at hs
      · cases hs
      · injection hs with hs
        subst hs
        have hrest : Shape (c :: (A2 ++ E ++ Q)) := ⟨c :: A2, E, Q, rfl, hE, hQ⟩
        rcases finishSplit_good _ A1 _ hrest with hp | hq | hf
        · exact Or.inr (Or.inl hp)
        · exact Or.inr (Or.inr (Or.inl hq))
        · exact Or.inr (Or.inr (Or.inr hf))
    · subst hQR
      simp only [heqN] at hs
      split at hs
      · cases hs
      · injection hs with hs
        subst hs
        exact Or.inl ⟨⟨A', E, hE, rfl⟩, finishSplit_path_qhead _ _ R⟩
    · exact absurd hqm (by decide)
    · obtain rfl : Q = [] := by
        cases hQv : Q with
        | nil => rfl
        | cons q R =>
          subst hQv
          rcases hQ with h0 | h0
          · cases h0
          · injection h0 with h0
            subst h0
            exact absurd (hall '?' (List.mem_append_right (A' ++ E) (List.mem_cons_self '?' R)))
              (by decide)
      simp only [List.append_nil] at heqN hs
      simp only [heqN] at hs
      split at hs
      · cases hs
      · injection hs with hs
        subst hs
        exact Or.inl ⟨⟨A', E, hE, rfl⟩, finishSplit_path_nil _ _⟩
  · rw [if_neg htk] at hs
    injection hs with hs
    subst hs
    rcases finishSplit_good _ [] _ ⟨A, E, Q, rfl, hE, hQ⟩ with hp | hq | hf
    · exact Or.inr (Or.inl hp)
    · exact Or.inr (Or.inr (Or.inl hq))
    · exact Or.inr (Or.inr (Or.inr hf))

theorem splitparams_good (url : PyStr) (h : EndsE url) :
    (EndsE (splitparams url).1 ∧ (splitparams url).2 = []) ∨ EndsE (splitparams url).2 := by
  obtain ⟨X, E, hE, rfl⟩ := h
  have hEa : ∀ c ∈ E.reverse, (fun c => c == '/') c = false := by
    intro c hc
    exact chunk_slash_false E hE c (List.mem_reverse.mp hc)
  have hbrev : breakAt (fun c => c == '/') ((X ++ E).reverse)
      = (E.reverse ++ (breakAt (fun c => c == '/') X.reverse).1,
         (breakAt (fun c => c == '/') X.reverse).2) := by
    rw [List.reverse_append]
    exact breakAt_append_not _ _ _ hEa
  have hlast : (E.reverse ++ (breakAt (fun c => c == '/') X.reverse).1).reverse
      = (breakAt (fun c => c == '/') X.reverse).1.reverse ++ E := by
    rw [List.reverse_append, List.reverse_reverse]
  cases hcont : (X ++ E).contains '/' with
  | true =>
    rcases breakAt_shape (fun c => c == ';') E [] (chunk_semi_false E hE) (Or.inl rfl)
        ((breakAt (fun c => c == '/') X.reverse).1.reverse) with
      ⟨A1, c, A2, hA, hc, hall, heqS⟩ | ⟨R, hQR, hqm, heqS⟩ |
      ⟨R1, c, R2, hQR, hqm, hc, hall, heqS⟩ | ⟨hall, heqS⟩
    · simp only [List.append_nil] at heqS
      right
      simp only [splitparams, hcont, if_true, hbrev, hlast, heqS]
      exact ⟨A2, E, hE, rfl⟩
    · cases hQR
    · cases hQR
    · simp only [List.append_nil] at heqS
      left
      simp only [splitparams, hcont, if_true, hbrev, hlast, heqS]
      exact ⟨⟨X, E, hE, rfl⟩, trivial⟩
  | false =>
    rcases breakAt_shape (fun c => c == ';') E [] (chunk_semi_false E hE) (Or.inl rfl) X with
      ⟨A1, c, A2, hA, hc, hall, heqS⟩ | ⟨R, hQR, hqm, heqS⟩ |
      ⟨R1, c, R2, hQR, hqm, hc, hall, heqS⟩ | ⟨hall, heqS⟩
    · simp only [List.append_nil] at heqS
      right
      simp only [splitparams, hcont, Bool.false_eq_true, if_false, heqS]
      exact ⟨A2, E, hE, rfl⟩
    · cases hQR
    · cases hQR
    · simp only [List.append_nil] at heqS
      left
      simp only [splitparams, hcont, Bool.false_eq_true, if_false, heqS]
      exact ⟨⟨X, E, hE, rfl⟩, trivial⟩

theorem urlparse_good (url dflt : PyStr) (u : Parse6) (h : Shape url)
    (hu : urlparse url dflt = .ok u) : Parse6Good u := by
  unfold urlparse at hu
  cases hsp : urlsplit url dflt with
  | error e => rw [hsp] at hu; exact absurd hu (by simp [Bind.bind, Except.bind])
  | ok s =>
    rw [hsp] at hu
    simp only [Bind.bind, Except.bind] at hu
    have hg := urlsplit_good url dflt s h hsp
    split at hu
    · injection hu with hu
      subst hu
      rename_i hcond
      rcases hg with ⟨hn, hp⟩ | hp | hq | hf
      · rw [hp] at hcond
        simp at hcond
      · rcases splitparams_good s.path hp with ⟨h1, h2⟩ | h1
        · exact Or.inr (Or.inl ⟨h1, h2⟩)
        · exact Or.inr (Or.inr (Or.inl h1))
      · exact Or.inr (Or.inr (Or.inr (Or.inl hq)))
      · exact Or.inr (Or.inr (Or.inr (Or.inr hf)))
    · injection hu with hu
      subst hu
      rcases hg with ⟨hn, hp⟩ | hp | hq | hf
      · exact Or.inl ⟨hn, hp, rfl⟩
      · exact Or.inr (Or.inl ⟨hp, rfl⟩)
      · exact Or.inr (Or.inr (Or.inr (Or.inl hq)))
      · exact Or.inr (Or.inr (Or.inr (Or.inr hf)))

theorem getLast?_cons_ne {α : Type} (a : α) (l : List α) (h : l ≠ []) :
    (a :: l).getLast? = l.getLast? := by
  cases l with
  | nil => exact absurd rfl h
  | cons b t => exact List.getLast?_cons_cons

theorem getLast_append_ne {α : Type} (l1 l2 : List α) (h : l2 ≠ []) :
    (l1 ++ l2).getLast? = l2.getLast? := by
  induction l1 with
  | nil => rfl
  | cons a t ih =>
    rw [List.cons_append, getLast?_cons_ne a (t ++ l2) ?_, ih]
    intro hc
    rcases List.append_eq_nil.mp hc with ⟨-, h2⟩
    exact h h2

theorem getLast?_cons_isSome {α : Type} (b : α) : ∀ t : List α, ∃ x, (b :: t).getLast? = some x := by
  intro t
  induction t generalizing b with
  | nil => exact ⟨b, rfl⟩
  | cons c t' ih =>
    obtain ⟨x, hx⟩ := ih c
    exact ⟨x, by rw [List.getLast?_cons_cons, hx]⟩

theorem getLast?_decomp {α : Type} : ∀ (l : List α) (x : α), l.getLast? = some x →
    ∃ t, l = t ++ [x] := by
  intro l
  induction l with
  | nil => intro x h; cases h
  | cons a t ih =>
    intro x h
    cases t with
    | nil =>
      simp only [List.getLast?_singleton, Option.some.injEq] at h
      exact ⟨[], by simp [h]⟩
    | cons b t' =>
      rw [List.getLast?_cons_cons] at h
      obtain ⟨t2, ht⟩ := ih x h
      exact ⟨a :: t2, by rw [ht, List.cons_append]⟩

theorem splitSepCore_ne_nil (sep : Char) : ∀ (fuel : Nat) (l : PyStr),
    splitSepCore sep fuel l ≠ [] := by
  intro fuel l
  cases fuel with
  | zero => simp [splitSepCore]
  | succ n =>
    rcases hbk : breakAt (fun c => c == sep) l with ⟨pre, rest⟩
    cases rest with
    | nil => simp [splitSepCore, hbk]
    | cons a t => simp [splitSepCore, hbk]

theorem filterMiddle_getLast : ∀ l : List PyStr, l ≠ [] →
    (filterMiddle l).getLast? = l.getLast?
  | [], h => absurd rfl h
  | [a], _ => rfl
  | a :: b :: t, _ => by
    obtain ⟨x, hx⟩ := getLast?_cons_isSome b t
    have hfm : filterMiddle (a :: b :: t)
        = a :: (((b :: t).dropLast.filter fun s => !s.isEmpty) ++ (b :: t).getLast?.toList) := rfl
    rw [hfm, hx, show (some x).toList = [x] from rfl]
    have h1 : (((b :: t).dropLast.filter fun s => !s.isEmpty) ++ [x]) ≠ [] := by
      intro hc
      rcases List.append_eq_nil.mp hc with ⟨-, h2⟩
      cases h2
    rw [getLast?_cons_ne _ _ h1]
    rw [List.getLast?_cons_cons, hx]
    rw [getLast_append_ne _ _ (by intro hc; cases hc)]
    rfl

theorem splitSepCore_getLast (E : PyStr) (hE : isExtChunk E) :
    ∀ (fuel : Nat) (X : PyStr), (X ++ E).length < fuel →
    ∃ Y, (splitSepCore '/' fuel (X ++ E)).getLast? = some (Y ++ E) := by
  intro fuel
  induction fuel with
  | zero => intro X h; exact absurd h (by omega)
  | succ n ih =>
    intro X hlen
    rcases breakAt_shape (fun c => c == '/') E [] (chunk_slash_false E hE) (Or.inl rfl) X with
      ⟨X1, c, X2, hX, hc, hall, heq⟩ | ⟨R, hQR, hqm, heq⟩ |
      ⟨R1, c, R2, hQR, hqm, hc, hall, heq⟩ | ⟨hall, heq⟩
    · simp only [List.append_nil] at heq
      subst hX
      have hne := splitSepCore_ne_nil '/' n (X2 ++ E)
      obtain ⟨Y, hY⟩ := ih X2 (by
        simp only [List.length_append, List.length_cons] at hlen ⊢
        omega)
      refine ⟨Y, ?_⟩
      simp only [splitSepCore, heq]
      rw [getLast?_cons_ne _ _ hne]
      exact hY
    · cases hQR
    · cases hQR
    · simp only [List.append_nil] at heq
      refine ⟨X, ?_⟩
      simp only [splitSepCore, heq]
      rfl

theorem splitSep_getLast (X E : PyStr) (hE : isExtChunk E) :
    ∃ Y, (splitSep '/' (X ++ E)).getLast? = some (Y ++ E) :=
  splitSepCore_getLast E hE _ X (by omega)

theorem splitSep_ne_nil (sep : Char) (l : PyStr) : splitSep sep l ≠ [] :=
  splitSepCore_ne_nil sep _ l

theorem resolveSegs_append_last (t : List PyStr) (s0 : PyStr)
    (h2 : s0 ≠ ['.', '.']) (h1 : s0 ≠ ['.']) :
    resolveSegs (t ++ [s0]) = resolveSegs t ++ [s0] := by
  unfold resolveSegs
  rw [List.foldl_append]
  simp only [List.foldl_cons, List.foldl_nil]
  rw [if_neg h2, if_neg h1]

theorem joinSep_append_last : ∀ (R : List PyStr) (s0 : PyStr),
    ∃ Z, joinSep ['/'] (R ++ [s0]) = Z ++ s0 := by
  intro R
  induction R with
  | nil => intro s0; exact ⟨[], rfl⟩
  | cons x R' ih =>
    intro s0
    cases R' with
    | nil => exact ⟨x ++ ['/'], rfl⟩
    | cons y R'' =>
      obtain ⟨Z', hZ⟩ := ih s0
      refine ⟨x ++ ['/'] ++ Z', ?_⟩
      have : joinSep ['/'] ((x :: y :: R'') ++ [s0])
          = x ++ ['/'] ++ joinSep ['/'] ((y :: R'') ++ [s0]) := rfl
      rw [this, hZ]
      simp [List.append_assoc]

theorem chunk_ne_dots (Y E : PyStr) (hE : isExtChunk E) :
    Y ++ E ≠ ['.', '.'] ∧ Y ++ E ≠ ['.'] := by
  have h4 := chunk_length E hE
  constructor <;>
    (intro hc
     have := congrArg List.length hc
     simp only [List.length_append, List.length_cons, List.length_nil] at this
     omega)

theorem mergedPath_endsE (bp up : PyStr) (h : EndsE up) :
    EndsE (
      let baseParts0 := splitSep '/' bp
      let baseParts := if baseParts0.getLast? ≠ some [] then baseParts0.dropLast else baseParts0
      let segments := if up.head? = some '/' then splitSep '/' up
        else filterMiddle (baseParts ++ splitSep '/' up)
      let resolved0 := resolveSegs segments
      let resolved := if segments.getLast? = some ['.', '.'] ∨ segments.getLast? = some ['.']
        then resolved0 ++ [[]] else resolved0
      let joined := joinSep ['/'] resolved
      if joined = [] then ['/'] else joined) := by
  obtain ⟨X, E, hE, rfl⟩ := h
  obtain ⟨Y, hY⟩ := splitSep_getLast X E hE
  have hdots := chunk_ne_dots Y E hE
  have hseg : (if (X ++ E).head? = some '/' then splitSep '/' (X ++ E)
      else filterMiddle ((if (splitSep '/' bp).getLast? ≠ some [] then (splitSep '/' bp).dropLast
        else splitSep '/' bp) ++ splitSep '/' (X ++ E))).getLast? = some (Y ++ E) := by
    split
    · exact hY
    · rw [filterMiddle_getLast _ ?_, getLast_append_ne _ _ (splitSep_ne_nil '/' (X ++ E))]
      · exact hY
      · intro hc
        rcases List.append_eq_nil.mp hc with ⟨-, h2⟩
        exact splitSep_ne_nil '/' (X ++ E) h2
  set segs := if (X ++ E).head? = some '/' then splitSep '/' (X ++ E)
    else filterMiddle ((if (splitSep '/' bp).getLast? ≠ some [] then (splitSep '/' bp).dropLast
      else splitSep '/' bp) ++ splitSep '/' (X ++ E)) with hsegs
  obtain ⟨t, ht⟩ := getLast?_decomp segs (Y ++ E) hseg
  have hres : resolveSegs segs = resolveSegs t ++ [Y ++ E] := by
    rw [ht]
    exact resolveSegs_append_last t (Y ++ E) hdots.1 hdots.2
  have hcondF : ¬(segs.getLast? = some ['.', '.'] ∨ segs.getLast? = some ['.']) := by
    rw [hseg]
    rintro (hc | hc) <;> (injection hc with hc; first | exact hdots.1 hc | exact hdots.2 hc)
  obtain ⟨Z, hZ⟩ := joinSep_append_last (resolveSegs t) (Y ++ E)
  have hne : Z ++ (Y ++ E) ≠ [] := by
    have h4 := chunk_length E hE
    intro hc
    have := congrArg List.length hc
    simp only [List.length_append, List.length_nil] at this
    omega
  show EndsE (
      if joinSep ['/'] (if segs.getLast? = some ['.', '.'] ∨ segs.getLast? = some ['.']
          then resolveSegs segs ++ [[]] else resolveSegs segs) = []
      then ['/']
      else joinSep ['/'] (if segs.getLast? = some ['.', '.'] ∨ segs.getLast? = some ['.']
          then resolveSegs segs ++ [[]] else resolveSegs segs))
  rw [if_neg hcondF, hres, hZ, if_neg hne]
  exact ⟨Z ++ Y, E, hE, by rw [List.append_assoc]⟩

theorem rel_sub_netloc (sc : PyStr) (h : uses_relative.contains sc = true) :
    uses_netloc.contains sc = true := by
  have hmem : sc ∈ uses_relative := List.elem_iff.mp h
  have hmem2 : sc ∈ uses_netloc := by
    fin_cases hmem <;> decide
  exact List.elem_iff.mpr hmem2

theorem urljoin_chunkTail (base url out : PyStr) (h : Shape url)
    (hj : urljoin base url = .ok out) : ChunkTail out := by
  unfold urljoin at hj
  by_cases hb : base = []
  · rw [if_pos hb] at hj
    injection hj with hj
    subst hj
    exact shape_chunkTail _ h
  · rw [if_neg hb] at hj
    rw [if_neg (shape_ne_nil url h)] at hj
    cases hpb : urlparse base [] with
    | error e => rw [hpb] at hj; exact absurd hj (by simp [Bind.bind, Except.bind])
    | ok b =>
      rw [hpb] at hj
      simp only [Bind.bind, Except.bind] at hj
      cases hpu : urlparse url b.scheme with
      | error e => rw [hpu] at hj; exact absurd hj (by simp [Bind.bind, Except.bind])
      | ok u =>
        rw [hpu] at hj
        simp only at hj
        have hug := urlparse_good url b.scheme u h hpu
        split at hj
        · injection hj with hj
          subst hj
          exact shape_chunkTail _ h
        · rename_i hcond1
          push_neg at hcond1
          have hnet : uses_netloc.contains u.scheme = true := rel_sub_netloc _ hcond1.2
          split at hj
          · injection hj with hj
            subst hj
            exact unparse_good _ hug
          · rename_i hcond2
            have hnl : u.netloc = [] := by
              by_contra hne
              exact hcond2 ⟨hnet, hne⟩
            split at hj
            · rename_i hcond3
              injection hj with hj
              subst hj
              rcases hug with ⟨hn, hp, hpa⟩ | ⟨hp, hpa⟩ | hpa | hq | hf
              · exact absurd (hnl ▸ hn) (fun hEE => endsE_ne_nil _ hEE rfl)
              · exact absurd hp (fun hEE => endsE_ne_nil _ hEE hcond3.1)
              · exact absurd hpa (fun hEE => endsE_ne_nil _ hEE hcond3.2)
              · have hqne := shape_ne_nil _ hq
                apply unparse_good
                right; right; right; left
                show Shape (if u.query = [] then b.query else u.query)
                rw [if_neg hqne]
                exact hq
              · apply unparse_good
                right; right; right; right
                exact hf
            · injection hj with hj
              subst hj
              rcases hug with ⟨hn, hp, hpa⟩ | ⟨hp, hpa⟩ | hpa | hq | hf
              · rename_i hcond3
                exact absurd ⟨hp, hpa⟩ hcond3
              · apply unparse_good
                right; left
                exact ⟨mergedPath_endsE b.path u.path hp, hpa⟩
              · apply unparse_good
                right; right; left
                exact hpa
              · apply unparse_good
                right; right; right; left
                exact hq
              · apply unparse_good
                right; right; right; right
                exact hf

theorem contentOK_shape (c : PyStr) (h : contentOK c = true) : Shape c := by
  unfold contentOK at h
  rw [List.any_eq_true] at h
  obtain ⟨i, hi, hcond⟩ := h
  rw [Bool.and_eq_true] at hcond
  obtain ⟨h1, h2⟩ := hcond
  unfold endsDotExt at h1
  rw [List.any_eq_true] at h1
  obtain ⟨e, he, hand⟩ := h1
  rw [Bool.and_eq_true] at hand
  obtain ⟨hlen0, hpre⟩ := hand
  have hlen : e.length + 2 ≤ (c.take i).length := of_decide_eq_true hlen0
  refine ⟨(c.take i).take ((c.take i).length - (e.length + 1)),
          (c.take i).drop ((c.take i).length - (e.length + 1)),
          c.drop i, ?_, ?_, ?_⟩
  · rw [List.take_append_drop, List.take_append_drop]
  · refine ⟨e, he, hpre, ?_⟩
    rw [List.length_drop]
    omega
  · rw [Bool.or_eq_true] at h2
    rcases h2 with h2 | h2
    · left
      cases hdrop : c.drop i with
      | nil => rfl
      | cons x xs =>
        rw [hdrop] at h2
        simp at h2
    · right
      exact eq_of_beq h2

theorem tryExtFrom_sound : ∀ (L : List PyStr) (s m r : PyStr),
    tryExtFrom L s = some (m, r) →
    ∃ e ∈ L, ciPre e s = true ∧ m = s.take e.length ∧ r = s.drop e.length := by
  intro L
  induction L with
  | nil => intro s m r h; cases h
  | cons e es ih =>
    intro s m r h
    by_cases hc : ciPre e s = true
    · unfold tryExtFrom at h
      rw [if_pos hc] at h
      injection h with h
      injection h with h1 h2
      exact ⟨e, List.mem_cons_self e es, hc, h1.symm, h2.symm⟩
    · unfold tryExtFrom at h
      rw [if_neg hc] at h
      obtain ⟨e', he', h3⟩ := ih s m r h
      exact ⟨e', List.mem_cons_of_mem e he', h3⟩

theorem bestDot_foldl_spec (run : PyStr) : ∀ (l : List Nat) (acc : Option (Nat × Nat)),
    (∀ b el, acc = some (b, el) → 1 ≤ b ∧ run.get? b = some '.' ∧
      ∃ m r, tryExt (run.drop (b + 1)) = some (m, r) ∧ el = m.length) →
    ∀ b el,
    l.foldl (fun acc i =>
      if decide (1 ≤ i) && (run.get? i == some '.') then
        match tryExt (run.drop (i + 1)) with
        | some (e, _) => some (i, e.length)
        | none => acc
      else acc) acc = some (b, el) →
    1 ≤ b ∧ run.get? b = some '.' ∧
      ∃ m r, tryExt (run.drop (b + 1)) = some (m, r) ∧ el = m.length := by
  intro l
  induction l with
  | nil => intro acc hacc b el h; exact hacc b el h
  | cons i l' ih =>
    intro acc hacc b el h
    rw [List.foldl_cons] at h
    refine ih _ ?_ b el h
    intro b' el' hstep
    by_cases hcond : (decide (1 ≤ i) && (run.get? i == some '.')) = true
    · rw [if_pos hcond] at hstep
      rw [Bool.and_eq_true] at hcond
      cases htry : tryExt (run.drop (i + 1)) with
      | none =>
        rw [htry] at hstep
        exact hacc b' el' hstep
      | some pr =>
        rcases pr with ⟨m, r⟩
        simp only [htry] at hstep
        injection hstep with hstep
        injection hstep with h1 h2
        subst h1
        subst h2
        exact ⟨of_decide_eq_true hcond.1, eq_of_beq hcond.2, m, r, htry, rfl⟩
    · rw [if_neg hcond] at hstep
      exact hacc b' el' hstep

theorem bestDot_spec (run : PyStr) (b el : Nat) (h : bestDot run = some (b, el)) :
    1 ≤ b ∧ run.get? b = some '.' ∧
      ∃ m r, tryExt (run.drop (b + 1)) = some (m, r) ∧ el = m.length := by
  unfold bestDot at h
  exact bestDot_foldl_spec run (List.range run.length) none (fun b el h => by cases h) b el h

theorem bestDot_take_shape (run : PyStr) (b el : Nat) (hbd : bestDot run = some (b, el))
    (hdr : PyStr) :
    Shape (hdr ++ run.take (if run.get? (b + 1 + el) == some '?' &&
        decide (b + 1 + el + 1 < run.length) then run.length else b + 1 + el)) := by
  obtain ⟨hb1, hget, m, r, htry, helm⟩ := bestDot_spec run b el hbd
  obtain ⟨e, he, hpre, hm, hr⟩ := tryExtFrom_sound extNames (run.drop (b + 1)) m r htry
  have hlenle : e.length ≤ (run.drop (b + 1)).length := ciPre_length_le e _ hpre
  have hel : el = e.length := by
    rw [helm, hm, List.length_take]
    omega
  have hhead : (run.drop b).head? = some '.' := by
    rw [List.head?_drop, ← List.get?_eq_getElem?]
    exact hget
  cases hd : run.drop b with
  | nil => rw [hd] at hhead; cases hhead
  | cons x xs =>
    rw [hd] at hhead
    injection hhead with hx
    subst hx
    have hxs : xs = run.drop (b + 1) := by
      have hstep : (run.drop b).drop 1 = run.drop (b + 1) := List.drop_drop 1 b run
      rw [hd] at hstep
      simpa using hstep
    have hEchunk : isExtChunk ('.' :: xs.take el) := by
      refine ⟨e, he, ?_, ?_⟩
      · show ((lowerC '.' == '.') && ciPre e (xs.take el)) = true
        rw [Bool.and_eq_true]
        refine ⟨by decide, ?_⟩
        rw [hel, hxs]
        exact ciPre_take e _ hpre
      · simp only [List.length_cons, List.length_take]
        rw [hxs]
        omega
    have htakep : run.take (b + 1 + el) = run.take b ++ '.' :: xs.take el := by
      have h1 : b + 1 + el = b + (1 + el) := by omega
      rw [h1, take_add', hd]
      have h2 : 1 + el = el + 1 := Nat.add_comm 1 el
      rw [h2, List.take_succ_cons]
    by_cases hstop : (run.get? (b + 1 + el) == some '?' &&
        decide (b + 1 + el + 1 < run.length)) = true
    · rw [if_pos hstop]
      rw [Bool.and_eq_true] at hstop
      have hq : run.get? (b + 1 + el) = some '?' := eq_of_beq hstop.1
      have hheadQ : (run.drop (b + 1 + el)).head? = some '?' := by
        rw [List.head?_drop, ← List.get?_eq_getElem?]
        exact hq
      have h2 : (run.take b ++ '.' :: xs.take el) ++ run.drop (b + 1 + el) = run := by
        rw [← htakep, List.take_append_drop]
      rw [List.take_length, ← h2]
      exact ⟨hdr ++ run.take b, '.' :: xs.take el, run.drop (b + 1 + el),
        by simp [List.append_assoc], hEchunk, Or.inr hheadQ⟩
    · rw [if_neg hstop, htakep]
      refine ⟨hdr ++ run.take b, '.' :: xs.take el, [], ?_, hEchunk, Or.inl rfl⟩
      simp [List.append_assoc]

theorem matchAbsoluteAt_shape (s g rest : PyStr)
    (h : matchAbsoluteAt s = some (g, rest)) : Shape g := by
  unfold matchAbsoluteAt at h
  by_cases hhttp : ciPre "http".data s = true
  · rw [if_pos hhttp] at h
    cases hdrop : s.drop 4 with
    | nil =>
      simp only [hdrop] at h
      cases h
    | cons c cs =>
      simp only [hdrop] at h
      by_cases hsc : isSChar c = true
      · simp only [hsc, if_true] at h
        by_cases hcol : ciPre "://".data cs = true
        · simp only [hcol, if_true] at h
          cases hbd : bestDot ((s.drop (4 + 4)).takeWhile allowedBody) with
          | none => simp only [hbd] at h; cases h
          | some pr =>
            rcases pr with ⟨b, el⟩
            simp only [hbd] at h
            injection h with h
            injection h with h1 h2
            rw [← h1]
            exact bestDot_take_shape _ b el hbd _
        · simp only [hcol, Bool.false_eq_true, if_false] at h
          cases h
      · simp only [hsc, Bool.false_eq_true, if_false] at h
        by_cases hcol : ciPre "://".data (c :: cs) = true
        · simp only [hcol, if_true] at h
          cases hbd : bestDot ((s.drop (4 + 3)).takeWhile allowedBody) with
          | none => simp only [hbd] at h; cases h
          | some pr =>
            rcases pr with ⟨b, el⟩
            simp only [hbd] at h
            injection h with h
            injection h with h1 h2
            rw [← h1]
            exact bestDot_take_shape _ b el hbd _
        · simp only [hcol, Bool.false_eq_true, if_false] at h
          cases h
  · rw [if_neg hhttp] at h
    cases h

theorem matchCombinedAt_shape (s g rest : PyStr)
    (h : matchCombinedAt s = some (g, rest)) : Shape g := by
  unfold matchCombinedAt at h
  cases h1 : dropAttr attrNames s with
  | none => rw [h1] at h; exact Option.noConfusion h
  | some s1 =>
    rw [h1] at h
    simp only [Bind.bind, Option.bind] at h
    cases h2 : expectC bslash s1 with
    | none => rw [h2] at h; exact Option.noConfusion h
    | some s2 =>
      rw [h2] at h
      simp only [Bind.bind, Option.bind] at h
      cases h4 : expectC '=' (s2.dropWhile isSChar) with
      | none => rw [h4] at h; exact Option.noConfusion h
      | some s4 =>
        rw [h4] at h
        simp only [Bind.bind, Option.bind] at h
        cases h5 : expectC bslash s4 with
        | none => rw [h5] at h; exact Option.noConfusion h
        | some s5 =>
          rw [h5] at h
          simp only [Bind.bind, Option.bind] at h
          cases h6 : s5.dropWhile isSChar with
          | nil => rw [h6] at h; exact Option.noConfusion h
          | cons q s7 =>
            rw [h6] at h
            by_cases hq : isQuote q = true
            · simp only [hq, if_true] at h
              cases h8 : (breakAt isQuote s7).2 with
              | nil => rw [h8] at h; exact Option.noConfusion h
              | cons a after =>
                rw [h8] at h
                by_cases h9 : contentOK (breakAt isQuote s7).1 = true
                · simp only [h9, if_true] at h
                  injection h with h
                  injection h with hg hr
                  rw [← hg]
                  exact contentOK_shape _ h9
                · simp only [h9, Bool.false_eq_true, if_false] at h
                  exact Option.noConfusion h
            · simp only [hq, Bool.false_eq_true, if_false] at h
              exact Option.noConfusion h

theorem findallCombinedAux_shape : ∀ (n : Nat) (s : PyStr) (g : PyStr),
    g ∈ findallCombinedAux n s → Shape g := by
  intro n
  induction n with
  | zero => intro s g hg; cases hg
  | succ n ih =>
    intro s g hg
    cases s with
    | nil => cases hg
    | cons c cs =>
      cases hm : matchCombinedAt (c :: cs) with
      | none =>
        simp only [findallCombinedAux, hm] at hg
        exact ih cs g hg
      | some pr =>
        rcases pr with ⟨g0, rest⟩
        simp only [findallCombinedAux, hm] at hg
        rcases List.mem_cons.mp hg with rfl | hg2
        · exact matchCombinedAt_shape _ _ _ hm
        · exact ih rest g hg2

theorem findallAbsoluteAux_shape : ∀ (n : Nat) (s : PyStr) (g : PyStr),
    g ∈ findallAbsoluteAux n s → Shape g := by
  intro n
  induction n with
  | zero => intro s g hg; cases hg
  | succ n ih =>
    intro s g hg
    cases s with
    | nil => cases hg
    | cons c cs =>
      cases hm : matchAbsoluteAt (c :: cs) with
      | none =>
        simp only [findallAbsoluteAux, hm] at hg
        exact ih cs g hg
      | some pr =>
        rcases pr with ⟨g0, rest⟩
        simp only [findallAbsoluteAux, hm] at hg
        rcases List.mem_cons.mp hg with rfl | hg2
        · exact matchAbsoluteAt_shape _ _ _ hm
        · exact ih rest g hg2

theorem mapME_mem (f : PyStr → Except PyErr PyStr) : ∀ (xs ys : List PyStr),
    mapME f xs = .ok ys → ∀ y ∈ ys, ∃ x ∈ xs, f x = .ok y := by
  intro xs
  induction xs with
  | nil =>
    intro ys h y hy
    injection h with h
    subst h
    cases hy
  | cons x xs' ih =>
    intro ys h y hy
    cases hfx : f x with
    | error e =>
      rw [mapME, hfx] at h
      exact absurd h (by simp [Bind.bind, Except.bind])
    | ok v =>
      rw [mapME, hfx] at h
      cases hm : mapME f xs' with
      | error e =>
        rw [hm] at h
        exact absurd h (by simp [Bind.bind, Except.bind])
      | ok vs =>
        rw [hm] at h
        simp only [Bind.bind, Except.bind] at h
        injection h with h
        subst h
        rcases List.mem_cons.mp hy with rfl | hy2
        · exact ⟨x, List.mem_cons_self x xs', hfx⟩
        · obtain ⟨x', hx', hfx'⟩ := ih vs hm y hy2
          exact ⟨x', List.mem_cons_of_mem x hx', hfx'⟩

theorem endsAudioModQuery_iff (u : PyStr) :
    EndsAudioModQuery u ↔
    ((List.range (u.length + 1)).any fun i =>
      endsAudio (u.take i) && ((u.drop i).isEmpty || (u.drop i).head? == some '?')) = true := by
  constructor
  · rintro ⟨p, q, rfl, hp, hq⟩
    rw [List.any_eq_true]
    refine ⟨p.length, ?_, ?_⟩
    · rw [List.mem_range, List.length_append]
      omega
    · rw [Bool.and_eq_true]
      constructor
      · rw [List.take_left]
        exact hp
      · rw [List.drop_left, Bool.or_eq_true]
        rcases hq with rfl | hq2
        · exact Or.inl rfl
        · exact Or.inr (beq_iff_eq.mpr hq2)
  · intro h
    rw [List.any_eq_true] at h
    obtain ⟨i, hi, hcond⟩ := h
    rw [Bool.and_eq_true] at hcond
    refine ⟨u.take i, u.drop i, (List.take_append_drop i u).symm, hcond.1, ?_⟩
    rcases Bool.or_eq_true .. |>.mp hcond.2 with h2 | h2
    · left
      cases hdrop : u.drop i with
      | nil => rfl
      | cons x xs =>
        rw [hdrop] at h2
        simp at h2
    · right
      exact eq_of_beq h2

/-- C3 (counterexample): the spec's invariant that every discovered link ends
in an audio extension modulo only an optional trailing `?`-query fails: on the
page text `https://x.com/a.mp3?#b` with page URL `https://x.com/`,
`extract_links` returns exactly `https://x.com/a.mp3#b` (`urljoin` drops the
empty query and keeps the fragment), and that URL does not end in an audio
extension even after ignoring a `?`-initiated tail. -/
theorem c3_query_dropped_fragment_kept :
    extract_links c3Html c3Base = .ok [c3Out] ∧ ¬ EndsAudioModQuery c3Out := by
  refine ⟨by decide, ?_⟩
  rw [endsAudioModQuery_iff]
  decide

/-- C3 (amended): whenever `extract_links` returns a list, every URL in it
ends (case-insensitively) in one of the six audio extensions optionally
followed by a trailing part that begins with `?` or with `#`.  The matched
text always carries its extension followed at most by a `?`-initiated query,
and `urljoin` preserves that shape except that it can drop an empty query and
leave a `#`-initiated fragment tail directly after the extension, so the
spec's `?`-only form of the invariant does not survive resolution. -/
theorem c3_audio_tail (html base : PyStr) (links : List PyStr)
    (h : extract_links html base = .ok links) : ∀ u ∈ links, AudioTail u := by
  intro u hu
  unfold extract_links at h
  cases h1 : mapME (urljoin base) (findallCombined html) with
  | error e => rw [h1] at h; exact absurd h (by simp [Bind.bind, Except.bind])
  | ok cs =>
    cases h2 : mapME (urljoin base) (findallAbsolute html) with
    | error e => rw [h1, h2] at h; exact absurd h (by simp [Bind.bind, Except.bind])
    | ok es =>
      rw [h1, h2] at h
      simp only [Bind.bind, Except.bind] at h
      injection h with h
      subst h
      have hu2 : u ∈ (cs ++ es).dedup := ((List.perm_insertionSort pyLe _).mem_iff).mp hu
      have hu3 : u ∈ cs ++ es := List.mem_dedup.mp hu2
      have hshape : ∃ g, Shape g ∧ urljoin base g = .ok u := by
        rcases List.mem_append.mp hu3 with hc | he
        · obtain ⟨g, hg, hj⟩ := mapME_mem _ _ _ h1 u hc
          exact ⟨g, findallCombinedAux_shape _ _ g hg, hj⟩
        · obtain ⟨g, hg, hj⟩ := mapME_mem _ _ _ h2 u he
          exact ⟨g, findallAbsoluteAux_shape _ _ g hg, hj⟩
      obtain ⟨g, hsh, hj⟩ := hshape
      exact chunkTail_audioTail u (urljoin_chunkTail base g u hsh hj)

/-- Witness for C3: a run of the amended theorem on the counterexample page;
its single output URL has the audio extension followed by a `#`-initiated
tail. -/
theorem c3_audio_tail_witness :
    extract_links c3Html c3Base = .ok [c3Out] ∧ AudioTail c3Out :=
  ⟨by decide, c3_audio_tail c3Html c3Base [c3Out] (by decide) c3Out (List.mem_cons_self _ _)⟩

end SfxDL
